import Mathlib

/-! # A command-line shell: history store, tokeniser, pipeline builder, executor

Shallow embedding of `history.c`, `util.c` and the main loop of `shell.c`.

Conventions of the embedding

* A C string is the list of its characters before the terminating NUL
  (`CStr`); a `char *` that may be `NULL` is an `Option CStr`.
* An array is a list of cells; a cell that was never written (fresh `malloc`
  memory) or whose string was freed is `none`.  Reading such a cell, or
  indexing outside the array, is a fault (`Res.fault`, or `none` where the
  function has no other failure).
* `int` and `long int` values are integers (`Int`).  The arithmetic of the
  history store stays inside the machine ranges for every capacity that an
  `int` can hold and for fewer than `2^63` additions, so no wrap-around is
  written into it.  The C operator `%` truncates towards zero: `Int.tmod`.
  The one narrowing conversion on the way of a command number, the
  `unsigned int` that `hist_last_cnum` returns and `double_bang_handler` keeps
  in an `int`, is written out (`% 2 ^ 32`, `int_of_unsigned`).
* Loops whose termination is not structural take a fuel argument and answer
  `Res.timeout` when it runs out.
* `malloc`, `calloc` and `strdup` succeed.  The calls whose failure the
  program handles (`realloc` in the tokenising loop of `main`, in `build_pipes`
  and in `execute_redirection`, `open`, `dup2`, `pipe`, `fork`, `execvp`)
  succeed or fail as a record `Sys` says.
* A pointer into the history is the index of the cell it was read from; the
  string a cell holds is what the cell's block reads from its first character
  to the first NUL.  Freeing a block that is not allocated, or reading a
  string that was freed, is a fault.
* A process is followed through the events visible from outside: the calls of
  `execvp`, with the argument vector and the standard descriptors at that
  moment, the returns of `execute_pipeline` to its caller, and the death of a
  process that hands a null program name to `execvp`.
-/

namespace Shell

/-- Contents of a NUL-terminated C string, without the terminator. -/
abbrev CStr := List Char

/-- Outcome of running a piece of the program. -/
inductive Res (α : Type) where
  | ok (a : α) : Res α
  | fault : Res α
  | timeout : Res α
deriving DecidableEq, Repr

/-- Sequencing of outcomes. -/
def Res.bind {α β : Type} (r : Res α) (f : α → Res β) : Res β :=
  match r with
  | .ok a => f a
  | .fault => .fault
  | .timeout => .timeout

/-- Read cell `i` of an array; `none` when the index is outside the array or
the cell holds no valid value. -/
def rd {α : Type} (m : List (Option α)) (i : Int) : Option α :=
  if 0 ≤ i then (m[i.toNat]?).join else none

/-- Write cell `i` of an array; `none` when the index is outside the array. -/
def wr {α : Type} (m : List (Option α)) (i : Int) (v : Option α) :
    Option (List (Option α)) :=
  if 0 ≤ i ∧ i < m.length then some (m.set i.toNat v) else none

/-! ## history.c -/

/-- The static variables of `history.c`. -/
structure History where
  strings : List (Option CStr)
  integers : List (Option Int)
  size : Int
  front : Int
  end_ : Int
  history_num : Int
deriving DecidableEq, Repr

/-- Embedding of `strings_list_full`. -/
def strings_list_full (s : History) : Bool :=
  (s.front == s.end_ + 1) || (s.front == 0 && s.end_ == s.size - 1)

/-- Embedding of `strings_list_empty`. -/
def strings_list_empty (s : History) : Bool :=
  s.front == -1

/-- Embedding of `hist_init`: both arrays are fresh `malloc` memory of `limit`
cells; `size = limit` keeps the value of `limit` for every capacity an `int`
can hold. -/
def hist_init (limit : Nat) : History :=
  { strings := List.replicate limit none
    integers := List.replicate limit none
    size := limit
    front := -1
    end_ := -1
    history_num := 0 }

/-- Embedding of `hist_remove`: drops the element at the front. In the branch
that advances `front` the string of the old front cell is freed. -/
def hist_remove (s : History) : Option History :=
  if strings_list_empty s then some s
  else if s.front = s.end_ then some { s with front := -1, end_ := -1 }
  else
    match rd s.strings s.front, wr s.strings s.front none with
    | some _, some strings' =>
      if s.size = 0 then none
      else some { s with strings := strings', front := Int.tmod (s.front + 1) s.size }
    | _, _ => none

/-- Embedding of `hist_add`; `none` is a fault (a write outside the arrays, `% 0`). -/
def hist_add (s : History) (cmd : CStr) : Option History :=
  let s1 := { s with history_num := s.history_num + 1 }
  (if strings_list_full s1 then hist_remove s1 else some s1).bind fun s2 =>
  let s3 := if s2.front = -1 then { s2 with front := 0 } else s2
  if s3.size = 0 then none
  else
    let e := Int.tmod (s3.end_ + 1) s3.size
    match wr s3.strings e (some cmd), wr s3.integers e (some s3.history_num) with
    | some strings', some integers' =>
      some { s3 with strings := strings', integers := integers', end_ := e }
    | _, _ => none

/-- The store after `hist_init limit` followed by one `hist_add` per command. -/
def hist_run (limit : Nat) (cmds : List CStr) : Option History :=
  cmds.foldlM hist_add (hist_init limit)

/-- The loop of `hist_print` from index `i`, with the line printed after it;
the result is the list of printed lines (number, text). -/
def hist_print_loop (s : History) : Nat → Int → Res (List (Int × CStr))
  | 0, _ => .timeout
  | fuel + 1, i =>
    match rd s.integers i, rd s.strings i with
    | some n, some str =>
      if i ≠ s.end_ then
        if s.size = 0 then .fault
        else (hist_print_loop s fuel (Int.tmod (i + 1) s.size)).bind fun rest =>
          .ok ((n, str) :: rest)
      else .ok [(n, str)]
    | _, _ => .fault

/-- Embedding of `hist_print`: the lines it prints, oldest first. -/
def hist_print (fuel : Nat) (s : History) : Res (List (Int × CStr)) :=
  if strings_list_empty s then .ok [] else hist_print_loop s fuel s.front

/-- Embedding of `strncmp` on NUL-terminated strings: `0` when the first `n`
characters agree (or both strings end before that), the difference of the
first differing characters otherwise. -/
def strncmp : CStr → CStr → Nat → Int
  | _, _, 0 => 0
  | [], [], _ + 1 => 0
  | [], b :: _, _ + 1 => 0 - (b.toNat : Int)
  | a :: _, [], _ + 1 => (a.toNat : Int)
  | a :: s, b :: p, n + 1 =>
    if a = b then strncmp s p n else (a.toNat : Int) - (b.toNat : Int)

/-- The `for` loop of `hist_search_prefix`, entered with loop variable `i`. -/
def hist_search_prefix_loop (s : History) (pfx : CStr) : Nat → Int → Res (Option CStr)
  | 0, _ => .timeout
  | fuel + 1, i =>
    if i ≠ s.end_ + 1 then
      let i1 := if i = 0 then s.size - 1 else i
      match rd s.strings i1 with
      | none => .fault
      | some str =>
        if strncmp str pfx pfx.length = 0 then .ok (some str)
        else hist_search_prefix_loop s pfx fuel (i1 - 1)
    else .ok none

/-- Embedding of `hist_search_prefix`; `none` is `NULL`. -/
def hist_search_prefix (fuel : Nat) (s : History) (pfx : CStr) : Res (Option CStr) :=
  if strings_list_empty s then .ok none else hist_search_prefix_loop s pfx fuel s.end_

/-- The `for` loop of `hist_search_cnum` from index `i`, with the test of the
last cell after it. -/
def hist_search_cnum_loop (s : History) (command_number : Int) :
    Nat → Int → Res (Option CStr)
  | 0, _ => .timeout
  | fuel + 1, i =>
    match rd s.integers i with
    | none => .fault
    | some n =>
      if i ≠ s.end_ then
        if n = command_number then
          match rd s.strings i with
          | none => .fault
          | some str => .ok (some str)
        else if s.size = 0 then .fault
        else hist_search_cnum_loop s command_number fuel (Int.tmod (i + 1) s.size)
      else if n = command_number then
        match rd s.strings i with
        | none => .fault
        | some str => .ok (some str)
      else .ok none

/-- Embedding of `hist_search_cnum`; `none` is `NULL`. -/
def hist_search_cnum (fuel : Nat) (s : History) (command_number : Int) :
    Res (Option CStr) :=
  if strings_list_empty s then .ok none
  else hist_search_cnum_loop s command_number fuel s.front

/-- Representation invariant of the store after the commands `cmds` were added
to a store of capacity `C`. -/
structure HInv (C : Nat) (cmds : List CStr) (s : History) : Prop where
  size_eq : s.size = (C : Int)
  slen : s.strings.length = C
  ilen : s.integers.length = C
  num : s.history_num = (cmds.length : Int)
  front_eq : s.front = if cmds.length = 0 then -1
    else if cmds.length ≤ C then 0 else ((cmds.length % C : Nat) : Int)
  end_eq : s.end_ = if cmds.length = 0 then -1 else (((cmds.length - 1) % C : Nat) : Int)
  slots : ∀ k, k < cmds.length → cmds.length ≤ k + C →
    s.strings[k % C]? = some cmds[k]? ∧ s.integers[k % C]? = some (some ((k : Int) + 1))

/-! ## util.c: `next_token`, and the tokenising loop of `main` -/

/-- Embedding of `strspn`: length of the longest initial segment made of characters of `accept`. -/
def strspn (s accept : CStr) : Nat :=
  (s.takeWhile fun c => accept.contains c).length

/-- Embedding of `strcspn`: length of the longest initial segment free of characters of `reject`. -/
def strcspn (s reject : CStr) : Nat :=
  (s.takeWhile fun c => !reject.contains c).length

/-- Embedding of `next_token`. The first component is the returned token (`none` is `NULL`),
the second the new value of `*str_ptr`. The token is the string that starts at
`current_ptr` once the delimiter after it has been overwritten by NUL. -/
def next_token (str_ptr : Option CStr) (delim : CStr) : Option CStr × Option CStr :=
  match str_ptr with
  | none => (none, none)
  | some str =>
    let tok_start := strspn str delim
    let tok_end := strcspn (str.drop tok_start) delim
    if tok_end = 0 then (none, none)
    else
      let current := (str.drop tok_start).take tok_end
      match str.drop (tok_start + tok_end) with
      | [] => (some current, none)
      | _ :: after => (some current, some after)

/-- The delimiters `" \t\r\n"` the callers of `next_token` pass. -/
def delims : CStr := [' ', '\t', '\r', '\n']

/-- Number of bytes of a `char *`. -/
def sizeof_ptr : Nat := 8

/-- Local variables of `main` during tokenisation: `args` holds the cells
`args[0 .. tokens-1]` written so far (`tokens` is its length), `cap` is the
number of `char *` cells of the block `args` points to. -/
structure TokState where
  args : List CStr
  pipes : Bool
  io_redirection : Bool
  size : Int
  cap : Nat
deriving DecidableEq, Repr

/-- The state of `main` when the tokenising loop is entered. -/
def tok_init : TokState :=
  { args := [], pipes := false, io_redirection := false, size := 100,
    cap := 100 * sizeof_ptr * sizeof_ptr / sizeof_ptr }

/-- The `realloc` step at the head of the loop body (lines 55 to 66 of
`shell.c`); `none` when `realloc` is called and returns `NULL`. -/
def tok_realloc (realloc_ok : Bool) (st : TokState) : Option TokState :=
  if st.size = 0 then
    if realloc_ok then
      some { st with cap := st.args.length * sizeof_ptr * sizeof_ptr / sizeof_ptr, size := 100 }
    else none
  else some st

/-- The store `args[tokens++] = curr_tok` with the flag updates and `size--`. -/
def tok_push (st : TokState) (curr_tok : CStr) : TokState :=
  { st with
    args := st.args ++ [curr_tok]
    pipes := st.pipes || curr_tok.head? == some '|'
    io_redirection := st.io_redirection || curr_tok.head? == some '>'
    size := st.size - 1 }

/-- The `while ((curr_tok = next_token(&next_tok, " \t\r\n")) != NULL)` loop of
`main`. A store `args[tokens++] = curr_tok` outside the block is a fault. When
`realloc` fails the code frees `args` and `command` and executes `continue`,
which continues this very loop: its next step reads `command` through
`next_token`, or leaves the loop and stores `args[tokens]`, in freed memory
either way: a fault. -/
def tokenize_loop (realloc_ok : Bool) : Nat → Option CStr → TokState → Res TokState
  | 0, _, _ => .timeout
  | fuel + 1, next_tok, st =>
    match next_token next_tok delims with
    | (none, _) => .ok st
    | (some curr_tok, next_tok') =>
      match tok_realloc realloc_ok st with
      | none => .fault
      | some st1 =>
        if curr_tok.head? = some '#' then .ok st1
        else if st1.args.length < st1.cap then
          tokenize_loop realloc_ok fuel next_tok' (tok_push st1 curr_tok)
        else .fault

/-- Tokenisation of one input line by `main`, up to and including the store
`args[tokens] = (char *) 0`; `realloc_ok` tells whether `realloc` succeeds. -/
def main_tokenize (realloc_ok : Bool) (fuel : Nat) (command : CStr) : Res TokState :=
  (tokenize_loop realloc_ok fuel (some command) tok_init).bind fun st =>
  if st.args.length < st.cap then .ok st else .fault

/-- Written from the words of the specification: the characters that separate
tokens are space, tab, carriage return and newline. -/
def spec_blank (c : Char) : Bool :=
  c == ' ' || c == '\t' || c == '\r' || c == '\n'

/-- Written from the words of the specification: the maximal runs of
characters other than space, tab, carriage return and newline, in
left-to-right order. -/
def spec_runs (line : CStr) : List CStr :=
  (line.splitOnP spec_blank).filter fun t => !t.isEmpty

/-- Written from the words of the specification: the runs of the line, cut
off just before the first run that begins with `#`. -/
def spec_argv (line : CStr) : List CStr :=
  (spec_runs line).takeWhile fun t => t.head? != some '#'

/-- The tokens `next_token` cuts out of a string with the delimiters `delims`:
the non-empty pieces of the string split at the characters of `delims`. -/
def runs (s : CStr) : List CStr :=
  (s.splitOnP fun c => delims.contains c).filter fun t => !t.isEmpty

/-- The runs of the line, cut off just before the first run that begins
with `#`. -/
def spec_tokens (line : CStr) : List CStr :=
  (runs line).takeWhile fun t => t.head? != some '#'

/-- Invariant of the tokenising loop that keeps every store inside the block
`args`: `tokens + size` is a multiple of 100 and the block has at least
800 cells, and at least `8 * (tokens + size - 100)`. -/
def CapInv (st : TokState) : Prop :=
  ∃ q : Nat, (st.args.length : Int) + st.size = 100 * ((q : Int) + 1) ∧ 0 ≤ st.size ∧
    800 ≤ st.cap ∧ 800 * q ≤ st.cap

/-! ## util.c: `build_pipes`, `execute_redirection`, `execute_pipeline` -/

/-- The array `args` of `main`: a cell `some t` points to the token `t`, a cell
`none` is the null pointer. -/
abbrev Args := List (Option CStr)

/-- The array `args` as `main` leaves it after tokenisation: the tokens, then
the terminating null pointer. -/
def args_of (toks : List CStr) : Args :=
  toks.map some ++ [none]

/-- The NULL-terminated vector stored in a run of cells; `none` when the cells
end before a null pointer is met. -/
def read_argv : Args → Option (List CStr)
  | [] => none
  | none :: _ => some []
  | some t :: rest => (read_argv rest).map (t :: ·)

/-- The NULL-terminated vector that starts at cell `p` of `args`: what a
`char **` pointing at `&args[p]` denotes. -/
def argv_at (args : Args) (p : Nat) : Option (List CStr) :=
  read_argv (args.drop p)

/-- Embedding of `struct command_line`. `tokens` points into the array `args`: it is kept as
the index of the cell it points at (`none` is the null pointer). -/
structure command_line where
  tokens : Option Nat
  stdout_pipe : Bool
  stdout_file : Option CStr
deriving DecidableEq, Repr

/-- A zero-filled `struct command_line`, as `calloc` hands it out. -/
def command_line.zero : command_line :=
  { tokens := none, stdout_pipe := false, stdout_file := none }

/-- Embedding of `realloc (block, n * sizeof (struct command_line))`: the block now has `n`
cells and keeps the old contents that fit. -/
def realloc_cells (block : List command_line) (n : Nat) : List command_line :=
  block.take n ++ List.replicate (n - block.length) command_line.zero

/-- What `build_pipes` hands to its caller: the array `args` as the call left
it and the block `cmds` it returns a pointer to. -/
structure Pipeline where
  args : Args
  cmds : List command_line
deriving DecidableEq, Repr

/-- The token `"|"`. -/
def pipe_tok : CStr := ['|']

/-- The `while (args[i] != (char *) 0)` loop of `build_pipes` with the store
`cmds[j].stdout_pipe = false` after it. `none` is the `NULL` returned when
`realloc` fails; a store outside the block `cmds` is a fault. -/
def build_pipes_loop (realloc_ok : Bool) :
    Nat → Nat → Nat → Int → Args → List command_line → Res (Option Pipeline)
  | 0, _, _, _, _, _ => .timeout
  | fuel + 1, i, j, size, args, cmds =>
    match args[i]? with
    | none => .fault
    | some none =>
      match cmds[j]? with
      | none => .fault
      | some c => .ok (some { args := args, cmds := cmds.set j { c with stdout_pipe := false } })
    | some (some tok) =>
      if size = 0 ∧ realloc_ok = false then .ok none
      else
        let cmds1 := if size = 0 then realloc_cells cmds i else cmds
        let size1 := if size = 0 then 100 else size
        if tok = pipe_tok then
          match cmds1[j + 1]? with
          | none => .fault
          | some c =>
            build_pipes_loop realloc_ok fuel (i + 1) (j + 1) (size1 - 1) (args.set i none)
              (cmds1.set (j + 1) { c with tokens := some (i + 1), stdout_pipe := true })
        else build_pipes_loop realloc_ok fuel (i + 1) j (size1 - 1) args cmds1

/-- Embedding of `build_pipes`. The loop reads one cell per round and stops at the first
null pointer or at the end of the array, so `args.length + 1` rounds suffice. -/
def build_pipes (realloc_ok : Bool) (args : Args) (pipes : Bool) : Res (Option Pipeline) :=
  let cmds := List.replicate 100 command_line.zero
  if pipes = true then
    build_pipes_loop realloc_ok (args.length + 1) 0 0 100 args
      (cmds.set 0 { command_line.zero with tokens := some 0, stdout_pipe := true })
  else
    .ok (some { args := args
                cmds := cmds.set 0 { command_line.zero with tokens := some 0,
                                                            stdout_pipe := false } })

/-- How a file is opened by a redirection: `>` (`O_WRONLY | O_CREAT | O_TRUNC`),
`>>` (`O_APPEND | O_CREAT | O_WRONLY`), `<` (`O_RDONLY`). -/
inductive OpenKind where
  | trunc | append | read
deriving DecidableEq, Repr

/-- What a standard descriptor of a process is bound to. -/
inductive Stream where
  | ambient_in
  | ambient_out
  | file (path : CStr) (kind : OpenKind)
  | pipe_read (n : Nat)
  | pipe_write (n : Nat)
deriving DecidableEq, Repr

/-- Standard input and standard output of a process. -/
structure Proc where
  stdin : Stream
  stdout : Stream
deriving DecidableEq, Repr

/-- The descriptors of the child `main` forks for a command. -/
def Proc.ambient : Proc :=
  { stdin := .ambient_in, stdout := .ambient_out }

/-- Answers of the operating system: which calls succeed. `pipe_ok n` and
`fork_ok n` are the answers to the calls of round `n` of `execute_pipeline`. -/
structure Sys where
  realloc_ok : Bool
  open_ok : CStr → OpenKind → Bool
  dup2_ok : Stream → Bool
  pipe_ok : Nat → Bool
  fork_ok : Nat → Bool
  exec_ok : List CStr → Bool

/-- A system on which every call succeeds. -/
def Sys.all_ok : Sys :=
  { realloc_ok := true, open_ok := fun _ _ => true, dup2_ok := fun _ => true,
    pipe_ok := fun _ => true, fork_ok := fun _ => true, exec_ok := fun _ => true }

/-- The state `execute_redirection` leaves behind: the array `args` and the
descriptors of the calling process. -/
structure Redirected where
  args : Args
  io : Proc
deriving DecidableEq, Repr

/-- The redirection operator a token denotes, if any, with the descriptor it
rebinds (`true`: standard output). -/
def redir_op (tok : CStr) : Option (OpenKind × Bool) :=
  if tok = ['>'] then some (.trunc, true)
  else if tok = ['>', '>'] then some (.append, true)
  else if tok = ['<'] then some (.read, false)
  else none

/-- The descriptors after `dup2 (fd, STDOUT_FILENO)` (`out`) or
`dup2 (fd, STDIN_FILENO)` for the file `path` opened as `kind`. -/
def redirect (io : Proc) (path : CStr) (kind : OpenKind) (out : Bool) : Proc :=
  if out then { io with stdout := .file path kind } else { io with stdin := .file path kind }

/-- The loop of `execute_redirection (&args[base])`. `cap` is the number of
cells of the block `redir`; a store outside it, or a read outside `args`, is a
fault. Every `return` of the function ends in `.ok`. -/
def execute_redirection_loop (sys : Sys) (base : Nat) :
    Nat → Nat → Nat → Int → Nat → Args → Proc → Res Redirected
  | 0, _, _, _, _, _, _ => .timeout
  | fuel + 1, i, j, size, cap, args, io =>
    match args[base + i]? with
    | none => .fault
    | some none => .ok { args := args, io := io }
    | some (some tok) =>
      if size = 0 ∧ sys.realloc_ok = false then .ok { args := args, io := io }
      else
        let cap1 := if size = 0 then i else cap
        let size1 := if size = 0 then 100 else size
        if ¬ j < cap1 then .fault
        else
          match redir_op tok with
          | none => execute_redirection_loop sys base fuel (i + 1) j (size1 - 1) cap1 args io
          | some (kind, out) =>
            let args1 := args.set (base + i) none
            if ¬ j + 1 < cap1 then .fault
            else
              match args1[base + i + 1]? with
              | none => .fault
              | some none => .ok { args := args1, io := io }
              | some (some path) =>
                if sys.open_ok path kind = false then .ok { args := args1, io := io }
                else if sys.dup2_ok (.file path kind) = false then .ok { args := args1, io := io }
                else
                  execute_redirection_loop sys base fuel (i + 1) (j + 1) (size1 - 1) cap1 args1
                    (redirect io path kind out)

/-- Embedding of `execute_redirection (&args[base])`, run by a process with descriptors
`io`. -/
def execute_redirection (sys : Sys) (args : Args) (base : Nat) (io : Proc) : Res Redirected :=
  execute_redirection_loop sys base (args.length + 1) 0 0 100 100 args io

/-- What a process does that is visible from outside. -/
inductive Event where
  /-- The call `execvp (tokens[0], tokens)` is made for stage `num` with the
  non-empty vector `argv`, by a process with descriptors `io`; `child` tells
  whether the caller is the process forked inside `execute_pipeline`. -/
  | exec (num : Nat) (argv : List CStr) (io : Proc) (child : Bool)
  /-- The process goes on in `main`: `execute_pipeline` returned to its caller
  in round `num`, or the `execvp` call of `main` failed, or `main` found
  nothing to execute. -/
  | ret (num : Nat) (child : Bool)
  /-- The process calls `execvp` with a null `tokens[0]`, which the C library
  dereferences: the process dies. -/
  | segv (num : Nat) (child : Bool)
deriving DecidableEq, Repr

/-- Embedding of a call `execvp (tokens[0], tokens)` with the `perror` and
`return` that follow it: the events of the calling process from the call on.
When the call succeeds the process runs the program and never returns. -/
def execvp (sys : Sys) (num : Nat) (argv : List CStr) (io : Proc) (child : Bool) :
    List Event :=
  if argv.isEmpty then [.segv num child]
  else if sys.exec_ok argv then [.exec num argv io child]
  else [.exec num argv io child, .ret num child]

/-- The events of the child forked in round `num` of `execute_pipeline` for a
stage with vector `argv`, by a process with descriptors `io`: nothing when
`fork` fails, otherwise `dup2 (fd[1], STDOUT_FILENO)` and `execvp`. -/
def child_events (sys : Sys) (num : Nat) (argv : List CStr) (io : Proc) : List Event :=
  if sys.fork_ok num = false then []
  else if sys.dup2_ok (.pipe_write num) = false then [.ret num true]
  else execvp sys num argv { io with stdout := .pipe_write num } true

/-- The `while (true)` loop of `execute_pipeline`, entered in round `num` by a
process with descriptors `io`. The pipe created in round `num` is pipe `num`.
The events of the forked child are listed where it is forked. -/
def execute_pipeline_loop (sys : Sys) (cmds : List command_line) :
    Nat → Nat → Args → Proc → Res (List Event)
  | 0, _, _, _ => .timeout
  | fuel + 1, num, args, io =>
    if sys.pipe_ok num = false then .ok [.ret num false]
    else
      match cmds[num]? with
      | none => .fault
      | some c =>
        match c.tokens with
        | none => .fault
        | some base =>
          (execute_redirection sys args base io).bind fun r =>
          match argv_at r.args base with
          | none => .fault
          | some argv =>
            if c.stdout_pipe = false then .ok (execvp sys num argv r.io false)
            else
              let child := child_events sys num argv r.io
              if sys.dup2_ok (.pipe_read num) = false then .ok (child ++ [.ret num false])
              else
                (execute_pipeline_loop sys cmds fuel (num + 1) r.args
                  { r.io with stdin := .pipe_read num }).bind fun rest =>
                .ok (child ++ rest)

/-- Embedding of `execute_pipeline (cmds)`, run by a process with descriptors `io`. Every
round moves to the next cell of `cmds`, so `cmds.length + 1` rounds suffice. -/
def execute_pipeline (sys : Sys) (p : Pipeline) (io : Proc) : Res (List Event) :=
  execute_pipeline_loop sys p.cmds (p.cmds.length + 1) 0 p.args io

/-! ## shell.c: the main loop from the built-in commands to the launch -/

/-- How one round of the main loop ends, from line 99 on. -/
inductive Action where
  /-- The cell `args[0]` is null: the line is skipped. -/
  | skip
  /-- The first token begins with `!`: lines 94 to 98 first rewrite the argv
  from the history; such a round is not followed further here. -/
  | expand
  /-- The command `exit` leaves the loop. -/
  | exit
  /-- One of the built-in commands `history`, `cd`, `jobs` ran; no process. -/
  | builtin (name : CStr)
  /-- The call of `build_pipes` returned `NULL`: the command is abandoned, no process. -/
  | abandon
  /-- The call `fork ()` is made; the child goes on with the pipeline `p`. -/
  | fork (p : Pipeline)
deriving DecidableEq, Repr

/-- Lines 83 to 130 of `main`, from the test of `args[0]` to the call of
`fork`; `toks` is the argv built by tokenisation and `pipes` the flag it set. -/
def main_dispatch (sys : Sys) (toks : List CStr) (pipes : Bool) : Res Action :=
  match toks with
  | [] => .ok .skip
  | a0 :: _ =>
    if a0.head? = some '!' then .ok .expand
    else if a0 = "exit".toList then .ok .exit
    else if a0 = "history".toList then .ok (.builtin a0)
    else if a0 = "cd".toList then .ok (.builtin a0)
    else if a0 = "jobs".toList then .ok (.builtin a0)
    else
      (build_pipes sys.realloc_ok (args_of toks) pipes).bind fun r =>
      match r with
      | none => .ok .abandon
      | some p => .ok (.fork p)

/-- Lines 134 to 144 of `main`: what the forked child does with the pipeline.
With `args[0]` null it executes nothing; with neither flag set it calls
`execvp (args[0], args)` itself. -/
def main_child (sys : Sys) (p : Pipeline) (pipes io_redirection : Bool) : Res (List Event) :=
  match p.args[0]? with
  | none => .fault
  | some none => .ok [.ret 0 false]
  | some (some _) =>
    if pipes = true ∨ io_redirection = true then execute_pipeline sys p Proc.ambient
    else
      match argv_at p.args 0 with
      | none => .fault
      | some argv => .ok (execvp sys 0 argv Proc.ambient false)

/-- One input line from tokenisation to the events of the child forked for
it, as far as `main_dispatch` follows the round; a round that forks no child
has no events. -/
def run_line (sys : Sys) (fuel : Nat) (line : CStr) : Res (List Event) :=
  (main_tokenize sys.realloc_ok fuel line).bind fun st =>
  (main_dispatch sys st.args st.pipes).bind fun a =>
  match a with
  | .fork p => main_child sys p st.pipes st.io_redirection
  | _ => .ok []

/-- The cells of `args` that hold a list of stages: the tokens of each stage
followed by a null pointer. -/
def blocks (stages : List (List CStr)) : Args :=
  (stages.map fun s => s.map some ++ [none]).flatten

/-- Index of the first cell of stage `m`. -/
def start_of (stages : List (List CStr)) (m : Nat) : Nat :=
  ((stages.take m).map fun s => s.length + 1).sum

/-- Cell `m` of the block `cmds` points at cell `start` of `args` and has the
flag `stdout_pipe` equal to `flag`. -/
def cell_is (cmds : List command_line) (m start : Nat) (flag : Bool) : Prop :=
  (cmds[m]?).map (fun c => (c.tokens, c.stdout_pipe)) = some (some start, flag)

instance (cmds : List command_line) (m start : Nat) (flag : Bool) :
    Decidable (cell_is cmds m start flag) := by
  unfold cell_is
  infer_instance

/-- The pipeline `p` holds the stages `stages`: `p.args` is their cells, and
cell `m` of `p.cmds` points at the first token of stage `m` and has
`stdout_pipe` set exactly when stage `m` is not the last. -/
def Pipeline.holds (p : Pipeline) (stages : List (List CStr)) : Prop :=
  p.args = blocks stages ∧
  ∀ m, m < stages.length → cell_is p.cmds m (start_of stages m) (decide (m + 1 < stages.length))

instance (p : Pipeline) (stages : List (List CStr)) : Decidable (p.holds stages) := by
  unfold Pipeline.holds
  infer_instance

/-- Number of tokens of a stage that are redirection operators. -/
def count_ops (s : List CStr) : Nat :=
  (s.filter fun t => (redir_op t).isSome).length

/-- The tokens of a stage before its first redirection operator. -/
def before_ops (s : List CStr) : List CStr :=
  s.takeWhile fun t => (redir_op t).isNone

/-- Functional description of `execute_redirection` on the tokens of one stage:
the cells of the stage and the descriptors it leaves. -/
def redir_run (sys : Sys) : List CStr → Proc → List (Option CStr) × Proc
  | [], io => ([], io)
  | t :: ts, io =>
    match redir_op t with
    | none => (some t :: (redir_run sys ts io).1, (redir_run sys ts io).2)
    | some (kind, out) =>
      match ts with
      | [] => ([none], io)
      | path :: _ =>
        if sys.open_ok path kind = false then (none :: ts.map some, io)
        else if sys.dup2_ok (.file path kind) = false then (none :: ts.map some, io)
        else (none :: (redir_run sys ts (redirect io path kind out)).1,
              (redir_run sys ts (redirect io path kind out)).2)

/-- Functional description of `execute_pipeline` on a list of stages, entered
in round `num` with descriptors `io`. -/
def pipeline_run (sys : Sys) : Nat → List (List CStr) → Proc → List Event
  | _, [], _ => []
  | num, [s], io =>
    if sys.pipe_ok num = false then [.ret num false]
    else execvp sys num (before_ops s) (redir_run sys s io).2 false
  | num, s :: s' :: rest, io =>
    if sys.pipe_ok num = false then [.ret num false]
    else
      child_events sys num (before_ops s) (redir_run sys s io).2 ++
        if sys.dup2_ok (.pipe_read num) = false then [.ret num false]
        else pipeline_run sys (num + 1) (s' :: rest)
          { (redir_run sys s io).2 with stdin := .pipe_read num }

/-- The stage, vector and descriptors of an `execvp` call. -/
def Event.exec_info : Event → Option (Nat × List CStr × Proc)
  | .exec num argv io _ => some (num, argv, io)
  | .ret _ _ => none
  | .segv _ _ => none

/-- The first tokens that `main` treats as commands of its own. -/
def builtins : List CStr :=
  ["exit".toList, "history".toList, "cd".toList, "jobs".toList]

/-! ## history.c: `hist_last_cnum`, and the searches with the pointer they return -/

/-- Embedding of `hist_last_cnum`. The cell `integers[end]` is read whatever
the value of `end` is; the number found there is returned as an
`unsigned int` of 32 bits. The stored numbers are never negative, so the test
`integers[end] > 0` on the pointer is the test `0 < n` on the number. -/
def hist_last_cnum (s : History) : Res Int :=
  match rd s.integers s.end_ with
  | none => .fault
  | some n => if 0 < n then .ok (n % 2 ^ 32) else .ok 0

/-- The value an `unsigned int` has once it is stored in an `int`. -/
def int_of_unsigned (u : Int) : Int :=
  if u < 2 ^ 31 then u else u - 2 ^ 32

/-- The loop of `hist_search_cnum` once more, with the pointer `strings[i]` it
returns kept as the index `i` of the cell the pointer was read from. -/
def hist_search_cnum_cell_loop (s : History) (command_number : Int) :
    Nat → Int → Res (Option Int)
  | 0, _ => .timeout
  | fuel + 1, i =>
    match rd s.integers i with
    | none => .fault
    | some n =>
      if i ≠ s.end_ then
        if n = command_number then
          match rd s.strings i with
          | none => .fault
          | some _ => .ok (some i)
        else if s.size = 0 then .fault
        else hist_search_cnum_cell_loop s command_number fuel (Int.tmod (i + 1) s.size)
      else if n = command_number then
        match rd s.strings i with
        | none => .fault
        | some _ => .ok (some i)
      else .ok none

/-- Embedding of `hist_search_cnum` as its callers in `util.c` use it: the
cell whose string is returned, `none` for `NULL`. -/
def hist_search_cnum_cell (fuel : Nat) (s : History) (command_number : Int) :
    Res (Option Int) :=
  if strings_list_empty s then .ok none
  else hist_search_cnum_cell_loop s command_number fuel s.front

/-- The loop of `hist_search_prefix` once more, with the pointer `strings[i]`
it returns kept as the index `i` of the cell. -/
def hist_search_prefix_cell_loop (s : History) (pfx : CStr) : Nat → Int → Res (Option Int)
  | 0, _ => .timeout
  | fuel + 1, i =>
    if i ≠ s.end_ + 1 then
      let i1 := if i = 0 then s.size - 1 else i
      match rd s.strings i1 with
      | none => .fault
      | some str =>
        if strncmp str pfx pfx.length = 0 then .ok (some i1)
        else hist_search_prefix_cell_loop s pfx fuel (i1 - 1)
    else .ok none

/-- Embedding of `hist_search_prefix` as `bang_handler` uses it: the cell
whose string is returned, `none` for `NULL`. -/
def hist_search_prefix_cell (fuel : Nat) (s : History) (pfx : CStr) : Res (Option Int) :=
  if strings_list_empty s then .ok none else hist_search_prefix_cell_loop s pfx fuel s.end_

/-- The string a search returned, from the cell it returned. -/
def string_of_cell (s : History) (r : Option Int) : Res (Option CStr) :=
  match r with
  | none => .ok none
  | some i =>
    match rd s.strings i with
    | none => .fault
    | some str => .ok (some str)

/-- The cell whose string a call of `hist_add` frees: `hist_remove` runs when
the list is full, and frees `strings[front]` unless `front == end`. -/
def hist_add_frees (s : History) : Option Int :=
  if strings_list_full s = true ∧ strings_list_empty s = false ∧ s.front ≠ s.end_
  then some s.front else none

/-! ## util.c: the history handlers -/

/-- What a string reads from its first character on after `next_token` ran on
it: when the first token is followed by a delimiter, that delimiter has been
overwritten by NUL. Later calls of `next_token` on the rest of the string
write behind this NUL. -/
def next_token_in_place (str : CStr) (delim : CStr) : CStr :=
  let tok_start := strspn str delim
  let tok_end := strcspn (str.drop tok_start) delim
  if tok_end = 0 then str else str.take (tok_start + tok_end)

/-- The loop `while ((split = next_token (&tmp, " \t\r\n")) != NULL) args[i++] = split;`
of the three handlers, with the store `args[i] = (char *) 0` after it. A store
outside the block `args` is a fault. -/
def handler_loop : Nat → Option CStr → Nat → Args → Res Args
  | 0, _, _, _ => .timeout
  | fuel + 1, tmp, i, args =>
    match next_token tmp delims with
    | (none, _) => if i < args.length then .ok (args.set i none) else .fault
    | (some split, tmp') =>
      if i < args.length then handler_loop fuel tmp' (i + 1) (args.set i (some split))
      else .fault

/-- Lines 342 to 353 of `double_bang_handler`, with `last` the value
`hist_last_cnum` returned. `strdup` of a null pointer is a fault; `strdup`
succeeds otherwise, and `hist_add` stores a copy of its own before `bang_str`
is cut into tokens. -/
def double_bang_handler_from (fuel : Nat) (s : History) (args : Args) (last : Int) :
    Res (History × Args) :=
  let num := int_of_unsigned last
  (hist_search_cnum fuel s num).bind fun temp =>
  match temp with
  | none => .fault
  | some bang_str =>
    match hist_add s bang_str with
    | none => .fault
    | some s1 =>
      (handler_loop fuel (some bang_str) 0 args).bind fun args1 => .ok (s1, args1)

/-- Embedding of `double_bang_handler`: the history and the block `args` it leaves. -/
def double_bang_handler (fuel : Nat) (s : History) (args : Args) : Res (History × Args) :=
  (hist_last_cnum s).bind fun last => double_bang_handler_from fuel s args last

/-- Embedding of `atoi` on a string that begins with a digit: the value of
its longest run of decimal digits; `none` when the value does not fit an
`int` (the behaviour is undefined then). -/
def atoi (s : CStr) : Option Int :=
  let v : Nat := (s.takeWhile Char.isDigit).foldl (fun acc c => 10 * acc + (c.toNat - 48)) 0
  if v < 2 ^ 31 then some (v : Int) else none

/-- The part both branches of `bang_handler` run when the search found the
string of cell `i`: a copy of the string is added to the history, then
`next_token` cuts the found string itself into tokens, in place, and `args`
is filled with pointers into it. When `hist_add` has freed the found string
(the oldest entry of a full list) the string is read after it was freed: a
fault. When `hist_add` has reused the cell without freeing the string
(capacity 1) the tokens are cut in a string the history no longer holds. -/
def bang_expand (fuel : Nat) (s : History) (i : Int) (args : Args) : Res (History × Args) :=
  match rd s.strings i with
  | none => .fault
  | some str =>
    match hist_add s str with
    | none => .fault
    | some s1 =>
      if hist_add_frees s = some i then .fault
      else
        (handler_loop fuel (some str) 0 args).bind fun args1 =>
        if s1.end_ = i then .ok (s1, args1)
        else
          match wr s1.strings i (some (next_token_in_place str delims)) with
          | none => .fault
          | some strings1 => .ok ({ s1 with strings := strings1 }, args1)

/-- Embedding of `bang_handler`; `bang_str` is the string `command` as the
tokenising loop of `main` left it. The calls `free (str)` free a null
pointer: `next_token` has set `str` to `NULL` when the loop is left. -/
def bang_handler (fuel : Nat) (s : History) (args : Args) (bang_str : CStr) :
    Res (History × Args) :=
  match bang_str with
  | [] => .fault
  | _ :: rest =>
    if rest.head?.any Char.isDigit then
      match atoi rest with
      | none => .fault
      | some n =>
        (hist_search_cnum_cell fuel s n).bind fun str =>
        match str with
        | none => .ok (s, args)
        | some i => bang_expand fuel s i args
    else
      (hist_search_prefix_cell fuel s rest).bind fun str =>
      match str with
      | none => .ok (s, args)
      | some i => bang_expand fuel s i args

/-! ## util.c and shell.c: the table of background jobs -/

/-- Embedding of `struct job_info`. -/
structure job_info where
  command : Option CStr
  pid : Int
deriving DecidableEq, Repr

/-- The static variables `jobs` and `job_num` of `util.c`. -/
structure JobTable where
  jobs : List job_info
  job_num : Nat
deriving DecidableEq, Repr

/-- The table when the program starts: ten zero-filled cells, `job_num = 0`. -/
def jobs_init : JobTable :=
  { jobs := List.replicate 10 { command := none, pid := 0 }, job_num := 0 }

/-- Lines 147 to 152 of `main`: the parent records the child `child` it
forked for the line `jobs_cmd`, whose last token is `&`. -/
def main_register (t : JobTable) (jobs_cmd : CStr) (child : Int) : Res JobTable :=
  let n := if t.job_num = 10 then 0 else t.job_num
  if n < t.jobs.length then
    .ok { jobs := t.jobs.set n { command := some jobs_cmd, pid := child }, job_num := n + 1 }
  else .fault

/-- One round of the loop of `sigchld_handler`, for index `i`. Reading
outside the array `jobs` is a fault. -/
def sigchld_handler_step (pid : Int) (r : Res (List job_info)) (i : Nat) :
    Res (List job_info) :=
  r.bind fun jobs =>
  match jobs[i]? with
  | none => .fault
  | some j => .ok (if j.pid = pid then jobs.set i { j with command := none } else jobs)

/-- Embedding of `sigchld_handler`; `pid` is what `waitpid (-1, &status, WNOHANG)`
returned. The loop runs for `i = 0, ..., job_num`. -/
def sigchld_handler (t : JobTable) (pid : Int) : Res JobTable :=
  ((List.range (t.job_num + 1)).foldl (sigchld_handler_step pid) (.ok t.jobs)).bind fun jobs =>
  .ok { t with jobs := jobs }

/-- The loop `for (i = ...; i >= 0; i--)` of the built-in command `jobs`,
entered with index `i`: the printed lines. -/
def main_jobs_loop (t : JobTable) : Nat → Res (List CStr)
  | 0 =>
    match t.jobs[0]? with
    | none => .fault
    | some j => .ok j.command.toList
  | i + 1 =>
    match t.jobs[i + 1]? with
    | none => .fault
    | some j => (main_jobs_loop t i).bind fun rest => .ok (j.command.toList ++ rest)

/-- Lines 112 to 116 of `main`: the lines the built-in command `jobs` prints. -/
def main_jobs (t : JobTable) : Res (List CStr) :=
  main_jobs_loop t t.job_num

/-- What happens to the table of jobs: the parent registers a background
command, or `sigchld_handler` runs with `waitpid` returning `pid`. -/
inductive JobOp where
  | register (jobs_cmd : CStr) (child : Int)
  | reap (pid : Int)
deriving DecidableEq, Repr

/-- One operation on the table. -/
def job_step (r : Res JobTable) (op : JobOp) : Res JobTable :=
  r.bind fun t =>
  match op with
  | .register jobs_cmd child => main_register t jobs_cmd child
  | .reap pid => sigchld_handler t pid

/-- The table after a sequence of operations, from the start of the program. -/
def job_run (ops : List JobOp) : Res JobTable :=
  ops.foldl job_step (.ok jobs_init)

/-- Written from the words of the specification: the registrations made,
most recent first, each with a flag that tells whether a notification for its
process id has arrived since; `acc` holds the registrations made before `ops`. -/
def spec_registered (acc : List (CStr × Int × Bool)) : List JobOp → List (CStr × Int × Bool)
  | [] => acc
  | .register jobs_cmd child :: ops => spec_registered ((jobs_cmd, child, false) :: acc) ops
  | .reap pid :: ops =>
    spec_registered (acc.map fun j => (j.1, j.2.1, j.2.2 || j.2.1 == pid)) ops

/-- Written from the words of the specification: the command texts of the
jobs among the ten most recent registrations whose process id has not been
reaped, most recently registered first. -/
def spec_jobs (ops : List JobOp) : List CStr :=
  (((spec_registered [] ops).take 10).filter fun j => !j.2.2).map fun j => j.1

/-- Number of registrations in a sequence of operations. -/
def registrations : List JobOp → Nat
  | [] => 0
  | .register _ _ :: ops => registrations ops + 1
  | .reap _ :: ops => registrations ops

/-- The cell of the table for a registration: its text, unless a notification
for its process id has arrived, and its process id. -/
def job_cell (j : CStr × Int × Bool) : job_info :=
  { command := if j.2.2 then none else some j.1, pid := j.2.1 }

/-- The table that holds the registrations `acc` (most recent first) in its
first cells, in the order they were made, and zero-filled cells after them. -/
def job_table (acc : List (CStr × Int × Bool)) : JobTable :=
  { jobs := acc.reverse.map job_cell ++
      List.replicate (10 - acc.length) { command := none, pid := 0 }
    job_num := acc.length }

/-! ## shell.c: one round of the main loop, history references included -/

/-- The block `args` when the tokenising loop is left: the tokens, the
terminating null pointer, and the rest of the block, which `calloc` filled
with null pointers (no cell after the terminator is read before it is
written). -/
def args_block (st : TokState) : Args :=
  st.args.map some ++ List.replicate (st.cap - st.args.length) none

/-- Lines 94 to 98 of `main`: the history and the block `args` after the
handlers; `command` is the input line. -/
def main_expand (fuel : Nat) (s : History) (args : Args) (command : CStr) :
    Res (History × Args) :=
  match args[0]? with
  | some (some a0) =>
    if a0 = "!!".toList then double_bang_handler fuel s args
    else if a0.head? = some '!' then
      bang_handler fuel s args (next_token_in_place command delims)
    else .ok (s, args)
  | _ => .fault

/-- Lines 99 to 130 of `main` on the block `args`: the built-in commands,
`build_pipes` and the call of `fork`. Comparing a null `args[0]` is a fault. -/
def main_launch (sys : Sys) (args : Args) (pipes : Bool) : Res Action :=
  match args[0]? with
  | some (some a0) =>
    if a0 = "exit".toList then .ok .exit
    else if a0 = "history".toList then .ok (.builtin a0)
    else if a0 = "cd".toList then .ok (.builtin a0)
    else if a0 = "jobs".toList then .ok (.builtin a0)
    else
      (build_pipes sys.realloc_ok args pipes).bind fun r =>
      match r with
      | none => .ok .abandon
      | some p => .ok (.fork p)
  | _ => .fault

/-- Lines 38 to 40 of `main`: a line that is not empty and does not begin
with `!` is added to the history. -/
def main_hist_add (s : History) (command : CStr) : Res History :=
  if command ≠ [] ∧ command.head? ≠ some '!' then
    match hist_add s command with
    | none => .fault
    | some s1 => .ok s1
  else .ok s

/-- Lines 38 to 130 of `main` for the input line `command`: the history after
the round and how the round goes on. The copy `jobs_cmd` of the line (lines
49 and 90 to 92) is left out; it is used in `main_register`. -/
def main_round (sys : Sys) (fuel : Nat) (s : History) (command : CStr) :
    Res (History × Action) :=
  (main_hist_add s command).bind fun s1 =>
  (main_tokenize sys.realloc_ok fuel command).bind fun st =>
  if st.args = [] then .ok (s1, .skip)
  else
    (main_expand fuel s1 (args_block st) command).bind fun r =>
    (main_launch sys r.2 st.pipes).bind fun a => .ok (r.1, a)

/-- Lines 134 to 144 of `main` for the input line `command`: the events of
the child the round forks; a round that forks no child has no events. -/
def main_round_child (sys : Sys) (fuel : Nat) (s : History) (command : CStr) :
    Res (List Event) :=
  (main_tokenize sys.realloc_ok fuel command).bind fun st =>
  (main_round sys fuel s command).bind fun r =>
  match r.2 with
  | .fork p => main_child sys p st.pipes st.io_redirection
  | _ => .ok []

/-- A system on which no program can be executed and every other call succeeds. -/
def Sys.no_exec : Sys :=
  { Sys.all_ok with exec_ok := fun _ => false }

/-- The heap blocks one round of the main loop allocates and frees. -/
inductive Block where
  | command | args | cmds
deriving DecidableEq, Repr

/-- Embedding of `free`: `heap` lists the blocks that are allocated; freeing
a block that is not allocated is a fault. -/
def free (heap : List Block) (b : Block) : Res (List Block) :=
  if b ∈ heap then .ok (heap.filter fun x => x ≠ b) else .fault

/-- Lines 159 to 161 of `main`, the end of a round; the process then is at
`while (true)` again and reads the next command line. -/
def main_round_end (heap : List Block) : Res (List Block) :=
  (free heap .args).bind fun h1 =>
  (free h1 .command).bind fun h2 =>
  free h2 .cmds

/-- What the forked child does when `execute_pipeline` returned or the
`execvp` call of `main` failed (the events `ret`): line 143, then the end of
the round. There is no call of `exit` on this way. -/
def main_child_return (heap : List Block) : Res (List Block) :=
  (free heap .command).bind fun h1 => main_round_end h1

/-- Every `execvp` call of the list that fails is followed at once by the
event `ret` of the same process: the caller goes on in `main`. -/
def failures_return (sys : Sys) : List Event → Bool
  | [] => true
  | .exec num argv _ child :: rest =>
    (sys.exec_ok argv || rest.head? == some (.ret num child)) && failures_return sys rest
  | _ :: rest => failures_return sys rest

/-! # Theorems -/

/-! ### Arithmetic of the circular index -/

theorem rd_natCast {α : Type} (m : List (Option α)) (n : Nat) :
    rd m (n : Int) = (m[n]?).join := by
  simp [rd]

theorem wr_natCast {α : Type} (m : List (Option α)) (n : Nat) (v : Option α)
    (h : n < m.length) : wr m (n : Int) v = some (m.set n v) := by
  simp [wr, h]

theorem tmod_succ_natCast (n C : Nat) :
    Int.tmod (((n % C : Nat) : Int) + 1) (C : Int) = (((n + 1) % C : Nat) : Int) := by
  rw [Int.tmod_eq_emod (by positivity) (by positivity)]
  norm_cast
  exact Nat.mod_add_mod n C 1

theorem mod_ne_of_lt_of_lt {k n C : Nat} (h1 : k < n) (h2 : n < k + C) :
    k % C ≠ n % C := by
  intro h
  have hd : C ∣ n - k := (Nat.modEq_iff_dvd' (le_of_lt h1)).1 h
  have := Nat.le_of_dvd (by omega) hd
  omega

theorem succ_mod_cases (n C : Nat) (hC : 0 < C) :
    ((n + 1) % C = n % C + 1 ∧ n % C + 1 < C) ∨ ((n + 1) % C = 0 ∧ n % C + 1 = C) := by
  have h := Nat.mod_lt n hC
  have e : (n + 1) % C = (n % C + 1) % C := (Nat.mod_add_mod n C 1).symm
  rcases Nat.lt_or_ge (n % C + 1) C with h1 | h1
  · left; exact ⟨by rw [e, Nat.mod_eq_of_lt h1], h1⟩
  · right
    have h2 : n % C + 1 = C := by omega
    exact ⟨by rw [e, h2, Nat.mod_self], h2⟩


theorem hist_add_eq {C : Nat} {cmds : List CStr} {s : History} (hC : 0 < C)
    (h : HInv C cmds s) (c : CStr) :
    hist_add s c = some
      { strings := s.strings.set (cmds.length % C) (some c)
        integers := s.integers.set (cmds.length % C) (some ((cmds.length : Int) + 1))
        size := C
        front := if cmds.length < C then 0 else (((cmds.length + 1) % C : Nat) : Int)
        end_ := ((cmds.length % C : Nat) : Int)
        history_num := (cmds.length : Int) + 1 } := by
  obtain ⟨strs, ints, size, front, end_, num⟩ := s
  obtain ⟨h1, h2, h3, h4, h5, h6, h7⟩ := h
  simp only at h1 h2 h3 h4 h5 h6 h7
  subst h1 h4
  have hlt : cmds.length % C < C := Nat.mod_lt _ hC
  by_cases hN : cmds.length = 0
  · -- empty store
    simp only [hN, if_true] at h5 h6
    subst h5 h6
    have hC' : (C : Int) ≠ 0 := by omega
    simp [hist_add, strings_list_full, wr, hN, hC, hC', h2, h3]
  · have hN1 : 1 ≤ cmds.length := by omega
    simp only [hN, if_false] at h5 h6
    have hC' : (C : Int) ≠ 0 := by omega
    have he : Int.tmod (end_ + 1) (C : Int) = ((cmds.length % C : Nat) : Int) := by
      rw [h6, tmod_succ_natCast, Nat.sub_add_cancel hN1]
    by_cases hNC : cmds.length < C
    · -- room left: nothing is removed
      have hm : (cmds.length - 1) % C = cmds.length - 1 := Nat.mod_eq_of_lt (by omega)
      have hm2 : cmds.length % C = cmds.length := Nat.mod_eq_of_lt hNC
      rw [if_pos (by omega)] at h5
      rw [hm] at h6
      rw [hm2] at he ⊢
      subst h5
      have hf : ¬ ((0 : Int) = end_ + 1) := by omega
      have hf2 : ¬ (end_ = (C : Int) - 1) := by omega
      simp [hist_add, strings_list_full, wr, hC', h2, h3, hNC, he, hf, hf2]
    · -- full: the front element is removed first
      have hfr : front = ((cmds.length % C : Nat) : Int) := by
        rw [h5]; split
        · have : cmds.length = C := by omega
          rw [this, Nat.mod_self]; rfl
        · rfl
      have hne : ¬ (front = -1) := by omega
      have hne2 : ¬ ((((cmds.length + 1) % C : Nat) : Int) = -1) := by omega
      have hfull : strings_list_full
          { strings := strs, integers := ints, size := (C : Int), front := front,
            end_ := end_, history_num := (cmds.length : Int) + 1 } = true := by
        simp only [strings_list_full, Bool.or_eq_true, Bool.and_eq_true, beq_iff_eq]
        rcases succ_mod_cases (cmds.length - 1) C hC with ⟨e1, _⟩ | ⟨e1, e2⟩
        · left; rw [hfr, h6]; rw [Nat.sub_add_cancel hN1] at e1; rw [e1]; push_cast; rfl
        · right; rw [Nat.sub_add_cancel hN1] at e1
          refine ⟨by rw [hfr, e1]; rfl, ?_⟩
          rw [h6]; omega
      by_cases hfe : front = end_
      · -- capacity one
        have hC1 : C = 1 := by
          rcases succ_mod_cases (cmds.length - 1) C hC with ⟨e1, _⟩ | ⟨e1, e2⟩
          · rw [Nat.sub_add_cancel hN1] at e1; omega
          · rw [Nat.sub_add_cancel hN1] at e1; omega
        subst hC1
        have hf0 : front = 0 := by rw [hfr, Nat.mod_one]; rfl
        have he0 : end_ = 0 := by rw [← hfe, hf0]
        subst hf0 he0
        simp [hist_add, strings_list_full, hist_remove, strings_list_empty, wr, h2, h3,
          Nat.mod_one]
      · -- the front cell is freed, then overwritten by the new command
        have hk : cmds.length - C < cmds.length := by omega
        have hmod : (cmds.length - C) % C = cmds.length % C := by
          conv_rhs => rw [← Nat.sub_add_cancel (Nat.le_of_not_lt hNC)]
          rw [Nat.add_mod_right]
        have hslot := (h7 (cmds.length - C) hk (by omega)).1
        rw [hmod, List.getElem?_eq_getElem hk] at hslot
        have hrd : rd strs front = some cmds[cmds.length - C] := by
          rw [hfr, rd_natCast, hslot]; rfl
        have hwr : wr strs front none = some (strs.set (cmds.length % C) none) := by
          rw [hfr]; exact wr_natCast _ _ _ (by omega)
        have hrm : hist_remove
            { strings := strs, integers := ints, size := (C : Int), front := front,
              end_ := end_, history_num := (cmds.length : Int) + 1 } = some
            { strings := strs.set (cmds.length % C) none, integers := ints, size := (C : Int),
              front := (((cmds.length + 1) % C : Nat) : Int),
              end_ := end_, history_num := (cmds.length : Int) + 1 } := by
          simp only [hist_remove, strings_list_empty, beq_iff_eq, hne, hfe, if_false, hrd, hwr,
            hC', Bool.false_eq_true]
          rw [hfr, tmod_succ_natCast]
        simp only [hist_add, hfull, if_true, hrm, Option.bind, hne2, if_false, hC', he]
        rw [wr_natCast _ _ _ (by rw [List.length_set]; omega), wr_natCast _ _ _ (by omega)]
        simp [hNC]


theorem HInv_init (C : Nat) : HInv C [] (hist_init C) := by
  constructor <;> simp [hist_init]

theorem HInv_add {C : Nat} {cmds : List CStr} {s : History} (hC : 0 < C)
    (h : HInv C cmds s) (c : CStr) :
    ∃ s', hist_add s c = some s' ∧ HInv C (cmds ++ [c]) s' := by
  refine ⟨_, hist_add_eq hC h c, ?_⟩
  have hlt : cmds.length % C < C := Nat.mod_lt _ hC
  constructor
  · rfl
  · simp [h.slen]
  · simp [h.ilen]
  · simp
  · simp only [List.length_append, List.length_singleton]
    split <;> split <;> omega
  · simp
  · intro k hk1 hk2
    simp only [List.length_append, List.length_singleton] at hk1 hk2
    by_cases hkN : k = cmds.length
    · subst hkN
      simp [h.slen, h.ilen, hlt]
    · have hk : k < cmds.length := by omega
      have hne : cmds.length % C ≠ k % C := (mod_ne_of_lt_of_lt hk (by omega)).symm
      obtain ⟨a, b⟩ := h.slots k hk (by omega)
      simp only [List.getElem?_set_ne hne, a, b, List.getElem?_append_left hk, and_self]

theorem hist_run_inv {C : Nat} (hC : 0 < C) (cmds : List CStr) :
    ∃ s, hist_run C cmds = some s ∧ HInv C cmds s := by
  induction cmds using List.reverseRecOn with
  | nil => exact ⟨hist_init C, rfl, HInv_init C⟩
  | append_singleton l c ih =>
    obtain ⟨s, hs, hi⟩ := ih
    obtain ⟨s', hs', hi'⟩ := HInv_add hC hi c
    refine ⟨s', ?_, hi'⟩
    unfold hist_run at hs ⊢
    rw [List.foldlM_append, hs]
    simpa using hs'


theorem HInv_front_base {C : Nat} {cmds : List CStr} {s : History}
    (h : HInv C cmds s) (hN : cmds.length ≠ 0) :
    s.front = (((cmds.length - min cmds.length C) % C : Nat) : Int) := by
  rw [h.front_eq, if_neg hN]
  split
  · rename_i hle
    rw [Nat.min_eq_left hle, Nat.sub_self, Nat.zero_mod]; rfl
  · rename_i hle
    have hle' : C ≤ cmds.length := by omega
    rw [Nat.min_eq_right hle']
    conv_lhs => rw [← Nat.sub_add_cancel hle']
    rw [Nat.add_mod_right]

theorem hist_search_cnum_loop_spec {C : Nat} {cmds : List CStr} {s : History} (hC : 0 < C)
    (h : HInv C cmds s) (n : Int) :
    ∀ (rest : List CStr) (k fuel : Nat), cmds.drop k = rest → rest ≠ [] →
      cmds.length ≤ k + C → rest.length ≤ fuel →
      hist_search_cnum_loop s n fuel ((k % C : Nat) : Int) =
        .ok (if (k : Int) < n ∧ n ≤ (cmds.length : Int) then cmds[(n - 1).toNat]? else none) := by
  intro rest
  induction rest with
  | nil => intro k fuel _ hne; exact absurd rfl hne
  | cons x r ih =>
    intro k fuel hd _ hcap hfuel
    have hk : k < cmds.length := by
      by_contra hk
      rw [List.drop_eq_nil_of_le (by omega)] at hd
      exact List.noConfusion hd
    have hx : cmds[k]? = some x := by
      rw [← List.head?_drop, hd]; rfl
    have hr : cmds.drop (k + 1) = r := by
      rw [← List.drop_drop 1 k, hd]; rfl
    obtain ⟨a, b⟩ := h.slots k hk hcap
    rw [hx] at a
    obtain ⟨f, rfl⟩ : ∃ f, fuel = f + 1 := ⟨fuel - 1, by simp at hfuel; omega⟩
    have hlen : cmds.length = k + 1 + r.length := by
      have := congrArg List.length hr
      simp at this; omega
    have hend : s.end_ = (((cmds.length - 1) % C : Nat) : Int) := by
      rw [h.end_eq, if_neg (by omega)]
    have hfound : (k : Int) + 1 = n →
        (if (k : Int) < n ∧ n ≤ (cmds.length : Int) then cmds[(n - 1).toNat]? else none)
          = some x := by
      intro e
      subst e
      rw [if_pos ⟨by omega, by omega⟩]
      simpa using hx
    unfold hist_search_cnum_loop
    simp only [rd_natCast, a, b, Option.join, Option.bind, id, hend]
    by_cases hr0 : r = []
    · subst hr0
      simp only [List.length_nil, add_zero] at hlen
      rw [if_neg (by simp [hlen])]
      by_cases e : (k : Int) + 1 = n
      · rw [if_pos e, hfound e]
      · rw [if_neg e, if_neg (by omega)]
    · have hr1 : 0 < r.length := List.length_pos.2 hr0
      have hne : k % C ≠ (cmds.length - 1) % C :=
        mod_ne_of_lt_of_lt (by omega) (by omega)
      rw [if_pos (by exact_mod_cast hne)]
      by_cases e : (k : Int) + 1 = n
      · rw [if_pos e, hfound e]
      · rw [if_neg e, if_neg (by rw [h.size_eq]; omega), h.size_eq,
          tmod_succ_natCast, ih (k + 1) f hr hr0 (by omega) (by simp at hfuel; omega)]
        congr 1
        by_cases c1 : (k : Int) < n ∧ n ≤ (cmds.length : Int)
        · rw [if_pos c1, if_pos ⟨by push_cast; omega, c1.2⟩]
        · rw [if_neg c1, if_neg (by push_cast; omega)]

/-- C2 (evaluation of the code): with capacity 3 after adding "a", "b", "c",
"d" the newest live entry "d" starts with the prefix "d", yet
`hist_search_prefix` returns `NULL`: the loop never compares cell 0 (the index
is moved to `size - 1` before the comparison) nor cell `end + 1`. With the
capacity 100 of the main loop and the single command "ls" in the store, the
search for "ls" reads the never-written cell 99. The example of the
specification (capacity 3, "ls -l", "ls", "ls -a", prefix "ls") does return
"ls -a". -/
theorem C2_hist_search_prefix_skips_cells :
    (hist_run 3 ["a".toList, "b".toList, "c".toList, "d".toList]).map
        (fun s => (s.strings, s.front, s.end_, hist_search_prefix 10 s "d".toList))
      = some ([some "d".toList, some "b".toList, some "c".toList], 1, 0, .ok none) ∧
    (hist_run 100 ["ls".toList]).map (fun s => hist_search_prefix 10 s "ls".toList)
      = some .fault ∧
    (hist_run 3 ["ls -l".toList, "ls".toList, "ls -a".toList]).map
        (fun s => hist_search_prefix 10 s "ls".toList)
      = some (.ok (some "ls -a".toList)) := by
  refine ⟨by decide, by decide, by decide⟩

/-! ### Tokeniser -/

theorem drop_length_takeWhile {α : Type} (q : α → Bool) (l : List α) :
    l.drop (l.takeWhile q).length = l.dropWhile q := by
  induction l with
  | nil => rfl
  | cons a l ih =>
    by_cases h : q a
    · simp [List.takeWhile_cons, List.dropWhile_cons, h, ih]
    · simp [List.takeWhile_cons, List.dropWhile_cons, h]

theorem take_length_takeWhile {α : Type} (q : α → Bool) (l : List α) :
    l.take (l.takeWhile q).length = l.takeWhile q := by
  induction l with
  | nil => rfl
  | cons a l ih =>
    by_cases h : q a
    · simp [List.takeWhile_cons, h, ih]
    · simp [List.takeWhile_cons, h]

theorem next_token_eq (s : CStr) :
    next_token (some s) delims =
      if (s.dropWhile fun c => delims.contains c).takeWhile (fun c => !delims.contains c) = []
      then (none, none)
      else
        match (s.dropWhile fun c => delims.contains c).dropWhile
            (fun c => !delims.contains c) with
        | [] => (some ((s.dropWhile fun c => delims.contains c).takeWhile
            (fun c => !delims.contains c)), none)
        | _ :: after => (some ((s.dropWhile fun c => delims.contains c).takeWhile
            (fun c => !delims.contains c)), some after) := by
  simp only [next_token, strspn, strcspn]
  rw [← List.drop_drop, drop_length_takeWhile, drop_length_takeWhile, take_length_takeWhile]
  simp only [List.length_eq_zero]

theorem runs_dropWhile (s : CStr) :
    runs (s.dropWhile fun c => delims.contains c) = runs s := by
  induction s with
  | nil => rfl
  | cons a l ih =>
    by_cases h : delims.contains a
    · rw [List.dropWhile_cons, if_pos h, ih]
      have h' : a ∈ delims := by simpa using h
      simp [runs, List.splitOnP_cons, h']
    · rw [List.dropWhile_cons, if_neg h]

/-- What `next_token` does on a string, in terms of the runs of the string. -/
theorem next_token_runs (s : CStr) :
    (runs s = [] ∧ next_token (some s) delims = (none, none)) ∨
    (∃ tok, tok ≠ [] ∧ runs s = [tok] ∧ next_token (some s) delims = (some tok, none)) ∨
    (∃ tok after, tok ≠ [] ∧ runs s = tok :: runs after ∧ after.length < s.length ∧
      next_token (some s) delims = (some tok, some after)) := by
  rw [next_token_eq, ← runs_dropWhile s]
  have hlen : (s.dropWhile fun c => delims.contains c).length ≤ s.length :=
    (List.dropWhile_sublist _).length_le
  have hhead : ∀ x, (s.dropWhile fun c => delims.contains c).head? = some x →
      delims.contains x = false := by
    intro x hx
    have := List.head?_dropWhile_not (fun c => delims.contains c) s
    rw [hx] at this
    exact this
  generalize (s.dropWhile fun c => delims.contains c) = s1 at hlen hhead ⊢
  have hsplit := List.takeWhile_append_dropWhile (fun c => !delims.contains c) s1
  have htok : ∀ x ∈ s1.takeWhile (fun c => !delims.contains c), ¬ delims.contains x = true := by
    intro x hx
    have := List.mem_takeWhile_imp hx
    simpa using this
  by_cases h0 : s1.takeWhile (fun c => !delims.contains c) = []
  · left
    rw [if_pos h0]
    refine ⟨?_, rfl⟩
    cases s1 with
    | nil => rfl
    | cons x l =>
      have hx := hhead x rfl
      rw [List.takeWhile_cons, hx] at h0
      exact absurd h0 (by simp)
  · rw [if_neg h0]
    right
    cases hd : s1.dropWhile (fun c => !delims.contains c) with
    | nil =>
      left
      rw [hd, List.append_nil] at hsplit
      refine ⟨_, h0, ?_, rfl⟩
      rw [hsplit] at htok ⊢
      simp only [runs, List.splitOnP_eq_single _ _ htok]
      have : s1.isEmpty = false := by
        cases s1 with
        | nil => simp at h0
        | cons _ _ => rfl
      rw [List.filter_cons_of_pos (by rw [this]; rfl)]
      rfl
    | cons d after =>
      right
      refine ⟨_, after, h0, ?_, ?_, rfl⟩
      · have hdlm : delims.contains d = true := by
          have := List.head?_dropWhile_not (fun c => !delims.contains c) s1
          rw [hd] at this
          simpa using this
        conv_lhs => rw [← hsplit, hd]
        simp only [runs, List.splitOnP_first _ _ htok d hdlm]
        have : (s1.takeWhile (fun c => !delims.contains c)).isEmpty = false := by
          cases hh : s1.takeWhile (fun c => !delims.contains c) with
          | nil => exact absurd hh h0
          | cons _ _ => rfl
        rw [List.filter_cons_of_pos (by rw [this]; rfl)]
      · have := congrArg List.length hsplit
        rw [hd] at this
        simp at this
        omega

theorem CapInv_init : CapInv tok_init :=
  ⟨0, by simp [tok_init], by simp [tok_init], by simp [tok_init, sizeof_ptr],
    by simp [tok_init]⟩

theorem CapInv_realloc {st : TokState} (realloc_ok : Bool) (h : CapInv st)
    (hre : realloc_ok = true ∨ st.size ≠ 0) :
    ∃ st1, tok_realloc realloc_ok st = some st1 ∧ CapInv st1 ∧ st1.args = st.args ∧
      st1.pipes = st.pipes ∧ st1.io_redirection = st.io_redirection ∧ 1 ≤ st1.size ∧
      (st.size ≠ 0 → st1.size = st.size) := by
  obtain ⟨q, h1, h2, h3, h4⟩ := h
  unfold tok_realloc
  by_cases hs : st.size = 0
  · have hok : realloc_ok = true := by
      rcases hre with h | h
      · exact h
      · exact absurd hs h
    rw [if_pos hs, if_pos hok]
    refine ⟨_, rfl, ⟨q + 1, ?_, ?_, ?_, ?_⟩, rfl, rfl, rfl, ?_, fun h => absurd hs h⟩ <;>
      simp only [sizeof_ptr, Nat.mul_div_cancel _ (by decide : 0 < 8)] <;> push_cast <;> omega
  · rw [if_neg hs]
    exact ⟨st, rfl, ⟨q, h1, h2, h3, h4⟩, rfl, rfl, rfl, by omega, fun _ => rfl⟩

theorem CapInv_lt {st : TokState} (h : CapInv st) : st.args.length < st.cap := by
  obtain ⟨q, h1, h2, h3, h4⟩ := h
  omega

theorem CapInv_push {st : TokState} (h : CapInv st) (hs : 1 ≤ st.size) (t : CStr) :
    CapInv (tok_push st t) := by
  obtain ⟨q, h1, h2, h3, h4⟩ := h
  refine ⟨q, ?_, ?_, h3, h4⟩ <;> simp only [tok_push, List.length_append, List.length_singleton]
    <;> push_cast <;> omega

theorem tokenize_loop_none (realloc_ok : Bool) (f : Nat) (st : TokState) :
    tokenize_loop realloc_ok (f + 1) none st = .ok st := rfl

/-- The tokenising loop appends to `args` the runs of the rest of the line up
to the first one beginning with `#`, and never stores outside the block,
provided no call of `realloc` fails: `realloc` succeeds, or the loop ends
before the counter `size` is used up. -/
theorem tokenize_loop_runs (realloc_ok : Bool) :
    ∀ (fuel : Nat) (s : CStr) (st : TokState), s.length < fuel → CapInv st →
      (realloc_ok = true ∨ ((spec_tokens s).length : Int) < st.size ∨
        ((runs s).length : Int) ≤ st.size) →
      ∃ st', tokenize_loop realloc_ok fuel (some s) st = .ok st' ∧ CapInv st' ∧
        st'.args = st.args ++ spec_tokens s ∧
        st'.pipes = (st.pipes || (spec_tokens s).any fun t => t.head? == some '|') ∧
        st'.io_redirection =
          (st.io_redirection || (spec_tokens s).any fun t => t.head? == some '>') := by
  intro fuel
  induction fuel with
  | zero => intro s st h; exact absurd h (Nat.not_lt_zero _)
  | succ f ih =>
    intro s st hlen hcap hre
    unfold tokenize_loop
    rcases next_token_runs s with ⟨hr, hn⟩ | ⟨tok, htok, hr, hn⟩ | ⟨tok, after, htok, hr, hl, hn⟩
    · rw [hn]
      exact ⟨st, rfl, hcap, by simp [spec_tokens, hr], by simp [spec_tokens, hr],
        by simp [spec_tokens, hr]⟩
    · have hre1 : realloc_ok = true ∨ st.size ≠ 0 := by
        rcases hre with h | h | h
        · exact Or.inl h
        · right; intro h0; rw [h0] at h; omega
        · right; intro h0; rw [h0, hr] at h; simp at h
      obtain ⟨st1, hst1, hc1, ha1, hp1, hi1, hs1, -⟩ := CapInv_realloc realloc_ok hcap hre1
      rw [hn]
      simp only [hst1]
      by_cases hh : tok.head? = some '#'
      · rw [if_pos hh]
        exact ⟨_, rfl, hc1, by simp [spec_tokens, hr, hh, ha1], by simp [spec_tokens, hr, hh, hp1],
          by simp [spec_tokens, hr, hh, hi1]⟩
      · rw [if_neg hh, if_pos (CapInv_lt hc1)]
        have hs0 : s ≠ [] := by
          intro h0; subst h0; simp [runs] at hr
        obtain ⟨f', rfl⟩ : ∃ f', f = f' + 1 := by
          have := List.length_pos.2 hs0
          exact ⟨f - 1, by omega⟩
        rw [tokenize_loop_none]
        exact ⟨_, rfl, CapInv_push hc1 hs1 tok, by simp [spec_tokens, hr, hh, tok_push, ha1],
          by simp [spec_tokens, hr, hh, tok_push, hp1],
          by simp [spec_tokens, hr, hh, tok_push, hi1]⟩
    · have hre1 : realloc_ok = true ∨ st.size ≠ 0 := by
        rcases hre with h | h | h
        · exact Or.inl h
        · right; intro h0; rw [h0] at h; omega
        · right; intro h0; rw [h0, hr] at h; simp at h; omega
      obtain ⟨st1, hst1, hc1, ha1, hp1, hi1, hs1, hsz⟩ := CapInv_realloc realloc_ok hcap hre1
      rw [hn]
      simp only [hst1]
      by_cases hh : tok.head? = some '#'
      · rw [if_pos hh]
        exact ⟨_, rfl, hc1, by simp [spec_tokens, hr, hh, ha1], by simp [spec_tokens, hr, hh, hp1],
          by simp [spec_tokens, hr, hh, hi1]⟩
      · rw [if_neg hh, if_pos (CapInv_lt hc1)]
        have hre2 : realloc_ok = true ∨
            ((spec_tokens after).length : Int) < (tok_push st1 tok).size ∨
            ((runs after).length : Int) ≤ (tok_push st1 tok).size := by
          rcases hre with h | h | h
          · exact Or.inl h
          · right; left
            have h0 : st.size ≠ 0 := by intro h0; rw [h0] at h; omega
            have : spec_tokens s = tok :: spec_tokens after := by
              simp [spec_tokens, hr, hh]
            rw [this] at h
            simp only [tok_push, hsz h0]
            simp at h
            omega
          · right; right
            have h0 : st.size ≠ 0 := by intro h0; rw [h0, hr] at h; simp at h; omega
            rw [hr] at h
            simp only [tok_push, hsz h0]
            simp at h
            omega
        obtain ⟨st', e1, e2, e3, e4, e5⟩ :=
          ih after (tok_push st1 tok) (by omega) (CapInv_push hc1 hs1 tok) hre2
        refine ⟨st', e1, e2, ?_, ?_, ?_⟩
        · rw [e3]; simp [spec_tokens, hr, hh, tok_push, ha1]
        · rw [e4]; simp [spec_tokens, hr, hh, tok_push, hp1, Bool.or_assoc]
        · rw [e5]; simp [spec_tokens, hr, hh, tok_push, hi1, Bool.or_assoc]

theorem runs_ne_nil_of_mem {s t : CStr} (h : t ∈ runs s) : t ≠ [] := by
  have := (List.mem_filter.1 h).2
  intro e
  subst e
  simp at this

theorem runs_eq_nil_of_all_delims {s : CStr} (h : ∀ c ∈ s, c ∈ delims) : runs s = [] := by
  rw [← runs_dropWhile s]
  have : (s.dropWhile fun c => delims.contains c) = [] := by
    rw [List.dropWhile_eq_nil_iff]
    intro x hx
    simpa using h x hx
  rw [this]
  rfl

/-- The delimiter string the code passes to `next_token` holds exactly the
four characters the specification names. -/
theorem spec_blank_eq (c : Char) : spec_blank c = delims.contains c := by
  rw [Bool.eq_iff_iff]
  simp [spec_blank, delims, or_assoc]

theorem spec_runs_eq (line : CStr) : spec_runs line = runs line := by
  unfold spec_runs runs
  have : spec_blank = fun c => delims.contains c := funext spec_blank_eq
  rw [this]

theorem spec_argv_eq (line : CStr) : spec_argv line = spec_tokens line := by
  unfold spec_argv spec_tokens
  rw [spec_runs_eq]

/-- C4 (amended): for every input line during whose tokenisation no call of
`realloc` fails (`realloc` succeeds, or the line has at most 100 runs, or
fewer than 100 runs before its first run beginning with `#`), the tokenising
loop of `main` returns, and the argv it builds is the list, in left-to-right
order, of the maximal runs of characters other than space, tab, carriage
return and newline, cut off just before the first run that begins with `#`;
every token in it is non-empty, and an empty or all-whitespace line yields
zero tokens. -/
theorem C4_main_tokenize (realloc_ok : Bool) (line : CStr) (fuel : Nat)
    (hfuel : line.length < fuel)
    (hre : realloc_ok = true ∨ (spec_argv line).length < 100 ∨ (spec_runs line).length ≤ 100) :
    ∃ st, main_tokenize realloc_ok fuel line = .ok st ∧ st.args = spec_argv line ∧
      (∀ t ∈ st.args, t ≠ []) ∧ ((∀ c ∈ line, spec_blank c = true) → st.args = []) := by
  rw [spec_argv_eq, spec_runs_eq] at hre
  have hre' : realloc_ok = true ∨ ((spec_tokens line).length : Int) < tok_init.size ∨
      ((runs line).length : Int) ≤ tok_init.size := by
    rcases hre with h | h | h
    · exact Or.inl h
    · right; left; simp only [tok_init]; exact_mod_cast h
    · right; right; simp only [tok_init]; exact_mod_cast h
  obtain ⟨st, h1, h2, h3, -, -⟩ :=
    tokenize_loop_runs realloc_ok fuel line tok_init hfuel CapInv_init hre'
  have hargs : st.args = spec_tokens line := by rw [h3]; rfl
  refine ⟨st, ?_, by rw [spec_argv_eq]; exact hargs, ?_, ?_⟩
  · simp only [main_tokenize, h1, Res.bind, if_pos (CapInv_lt h2)]
  · intro t ht
    rw [hargs] at ht
    exact runs_ne_nil_of_mem ((List.takeWhile_sublist _).subset ht)
  · intro hall
    have hall' : ∀ c ∈ line, c ∈ delims := by
      intro c hc
      have := hall c hc
      rw [spec_blank_eq] at this
      simpa using this
    rw [hargs, spec_tokens, runs_eq_nil_of_all_delims hall']
    rfl

/-- The loop meets a failing `realloc` when the counter `size` runs out before
the runs do. -/
theorem tokenize_loop_realloc_fails :
    ∀ (fuel : Nat) (s : CStr) (st : TokState), s.length < fuel → CapInv st →
      st.size ≤ ((spec_tokens s).length : Int) → st.size + 1 ≤ ((runs s).length : Int) →
      tokenize_loop false fuel (some s) st = .fault := by
  intro fuel
  induction fuel with
  | zero => intro s st h; exact absurd h (Nat.not_lt_zero _)
  | succ f ih =>
    intro s st hlen hcap h1 h2
    have hs0 : 0 ≤ st.size := by
      obtain ⟨q, -, h, -, -⟩ := hcap
      exact h
    unfold tokenize_loop
    rcases next_token_runs s with ⟨hr, hn⟩ | ⟨tok, htok, hr, hn⟩ | ⟨tok, after, htok, hr, hl, hn⟩
    · rw [hr] at h2
      simp at h2
      omega
    · rw [hr] at h2
      simp at h2
      have hz : st.size = 0 := by omega
      rw [hn]
      simp [tok_realloc, hz]
    · rw [hn]
      by_cases hz : st.size = 0
      · simp [tok_realloc, hz]
      · have hre : tok_realloc false st = some st := by simp [tok_realloc, hz]
        simp only [hre]
        by_cases hh : tok.head? = some '#'
        · have : spec_tokens s = [] := by simp [spec_tokens, hr, hh]
          rw [this] at h1
          simp at h1
          omega
        · rw [if_neg hh, if_pos (CapInv_lt hcap)]
          have hsp : spec_tokens s = tok :: spec_tokens after := by
            simp [spec_tokens, hr, hh]
          rw [hsp] at h1
          rw [hr] at h2
          simp at h1 h2
          exact ih after (tok_push st tok) (by omega) (CapInv_push hcap (by omega) tok)
            (by simp only [tok_push]; omega) (by simp only [tok_push]; omega)

/-- The condition of the amended C4 is the exact one: for every other line,
that is when `realloc` fails and the line has a 101st run with no run
beginning with `#` among the first hundred, tokenisation is a fault. -/
theorem main_tokenize_realloc_fails (line : CStr) (fuel : Nat) (hfuel : line.length < fuel)
    (h1 : 100 ≤ (spec_argv line).length) (h2 : 101 ≤ (spec_runs line).length) :
    main_tokenize false fuel line = .fault := by
  rw [spec_argv_eq] at h1
  rw [spec_runs_eq] at h2
  have := tokenize_loop_realloc_fails fuel line tok_init hfuel CapInv_init
    (by simp only [tok_init]; exact_mod_cast h1) (by simp only [tok_init]; exact_mod_cast h2)
  simp [main_tokenize, this, Res.bind]

/-- Witness of C4: the line `ls`, tab, `-l`, carriage return, `-a`, newline,
`b #x y`, with `realloc` failing. -/
theorem C4_witness :
    ∃ st, main_tokenize false 30 "ls\t-l\r-a\nb #x y".toList = .ok st ∧
      st.args = ["ls".toList, "-l".toList, "-a".toList, "b".toList] ∧
      (∀ t ∈ st.args, t ≠ []) ∧
      ((∀ c ∈ "ls\t-l\r-a\nb #x y".toList, spec_blank c = true) → st.args = []) :=
  C4_main_tokenize false "ls\t-l\r-a\nb #x y".toList 30 (by decide)
    (Or.inr (Or.inr (by decide)))

set_option maxRecDepth 1000000 in
/-- C4 (counterexample): a line of 101 tokens `a` when `realloc` fails. The
101st token finds `size == 0`, `realloc` returns `NULL`, and the loop goes on
in the memory it has just freed; no argv is built, where the claim gives the
101 tokens. With `realloc` succeeding the same line gives them. -/
theorem C4_realloc_failure_is_a_fault :
    main_tokenize false 300 (List.replicate 101 ['a', ' ']).flatten = .fault ∧
    spec_argv (List.replicate 101 ['a', ' ']).flatten = List.replicate 101 ['a'] ∧
    (main_tokenize true 300 (List.replicate 101 ['a', ' ']).flatten).bind
        (fun st => .ok st.args) = .ok (List.replicate 101 ['a']) := by
  refine ⟨by decide, by decide, by decide⟩

/-! ### Evaluations of the pipeline builder and the executor -/

set_option maxRecDepth 1000000 in
/-- C5 (evaluation of the code): on the 201 tokens of `a | a | ... | a` with
100 tokens `|` (pipes flag set), `build_pipes` stores into `cmds[100]` while
the block `cmds` has 100 cells (`calloc (100, ...)`; the `realloc` at token 100
asks for 100 cells again): a store outside the block, not a pipeline of 101
stages. The same happens when the main loop is given that line. -/
theorem C5_build_pipes_hundred_pipes :
    build_pipes true
      (args_of ((List.replicate 100 [['a'], pipe_tok]).flatten ++ [['a']])) true = .fault ∧
    run_line Sys.all_ok 1000 ((List.replicate 100 "a | ".toList).flatten ++ "a".toList)
      = .fault := by
  refine ⟨by decide, by decide⟩

/-- C6 (counterexample): for the tokens of `cmd1 | | cmd2`, whose middle stage
is empty, `build_pipes` returns a pipeline (whether or not `realloc` would
succeed), the main loop reaches `fork`, the pipeline has the three stages
`[cmd1]`, `[]`, `[cmd2]`, and on a system where every call succeeds `cmd1` and
`cmd2` are executed. -/
theorem C6_empty_stage_is_launched :
    (∀ b : Bool,
      (build_pipes b (args_of ["cmd1".toList, pipe_tok, pipe_tok, "cmd2".toList]) true).bind
        (fun r => .ok r.isSome) = .ok true) ∧
    (main_dispatch Sys.all_ok ["cmd1".toList, pipe_tok, pipe_tok, "cmd2".toList] true).bind
        (fun a => match a with
          | .fork p => .ok (some (p.cmds.take 3))
          | _ => .ok none)
      = .ok (some [{ tokens := some 0, stdout_pipe := true, stdout_file := none },
                   { tokens := some 2, stdout_pipe := true, stdout_file := none },
                   { tokens := some 3, stdout_pipe := false, stdout_file := none }]) ∧
    (main_dispatch Sys.all_ok ["cmd1".toList, pipe_tok, pipe_tok, "cmd2".toList] true).bind
        (fun a => match a with
          | .fork p => .ok (some ((p.cmds.take 3).map fun c => c.tokens.bind (argv_at p.args)))
          | _ => .ok none)
      = .ok (some [some ["cmd1".toList], some [], some ["cmd2".toList]]) ∧
    run_line Sys.all_ok 100 "cmd1 | | cmd2".toList
      = .ok [.exec 0 ["cmd1".toList] { stdin := .ambient_in, stdout := .pipe_write 0 } true,
             .segv 1 true,
             .exec 2 ["cmd2".toList] { stdin := .pipe_read 1, stdout := .ambient_out } false] := by
  refine ⟨by decide, by decide, by decide, by decide⟩

/-- C10 (evaluation of the code): for the line `a > f | b` on a system where
every call succeeds, stage 0 is executed with standard output bound to the
write end of pipe 0, not to the file `f`, and the last stage `b`, which has no
redirection, is executed with standard output bound to `f`. On the input side,
for `a | b < g`, the redirection does win over the pipe: `b` reads `g`. -/
theorem C10_pipe_overrides_redirection :
    run_line Sys.all_ok 100 "a > f | b".toList
      = .ok [.exec 0 ["a".toList] { stdin := .ambient_in, stdout := .pipe_write 0 } true,
             .exec 1 ["b".toList]
               { stdin := .pipe_read 0, stdout := .file "f".toList .trunc } false] ∧
    run_line Sys.all_ok 100 "a | b < g".toList
      = .ok [.exec 0 ["a".toList] { stdin := .ambient_in, stdout := .pipe_write 0 } true,
             .exec 1 ["b".toList]
               { stdin := .file "g".toList .read, stdout := .ambient_out } false] := by
  refine ⟨by decide, by decide⟩

/-! ### `execute_redirection` on the cells of a stage -/

theorem getElem?_mid {α : Type} (P : List α) (x : α) (R : List α) :
    (P ++ x :: R)[P.length]? = some x := by
  induction P with
  | nil => simp
  | cons a P ih => simpa using ih

theorem set_mid {α : Type} (P : List α) (x y : α) (R : List α) :
    (P ++ x :: R).set P.length y = P ++ y :: R := by
  induction P with
  | nil => rfl
  | cons a P ih => simp [ih]

theorem getElem?_mid_succ {α : Type} (P : List α) (x y : α) (R : List α) :
    (P ++ x :: y :: R)[P.length + 1]? = some y := by
  have := getElem?_mid (P ++ [x]) y R
  simpa using this

theorem count_ops_cons (t : CStr) (ts : List CStr) :
    count_ops (t :: ts) = count_ops ts + if (redir_op t).isSome then 1 else 0 := by
  unfold count_ops
  by_cases h : (redir_op t).isSome
  · simp [List.filter_cons, h]
  · simp [List.filter_cons, h]

theorem redir_run_no_ops (sys : Sys) :
    ∀ (s : List CStr) (io : Proc), (∀ t ∈ s, redir_op t = none) →
      redir_run sys s io = (s.map some, io) := by
  intro s
  induction s with
  | nil => intro io _; rfl
  | cons t ts ih =>
    intro io h
    have ht := h t (List.mem_cons_self _ _)
    have := ih io (fun x hx => h x (List.mem_cons_of_mem _ hx))
    simp [redir_run, ht, this]

/-- The loop of `execute_redirection`, started anywhere inside a stage with
fewer than 100 operators left to store, computes `redir_run`. -/
theorem execute_redirection_loop_eq (sys : Sys) (base : Nat) :
    ∀ (stage : List CStr) (P B : Args) (io : Proc) (fuel i j : Nat) (size : Int) (cap : Nat),
      (sys.realloc_ok = true ∨ ∀ t ∈ stage, redir_op t = none) →
      base + i = P.length → stage.length < fuel → j + count_ops stage < 100 → 100 ≤ cap →
      (∃ q : Nat, (i : Int) + size = 100 * ((q : Int) + 1)) → 0 ≤ size →
      execute_redirection_loop sys base fuel i j size cap (P ++ stage.map some ++ none :: B) io
        = .ok { args := P ++ (redir_run sys stage io).1 ++ none :: B
                io := (redir_run sys stage io).2 } := by
  intro stage
  induction stage with
  | nil =>
    intro P B io fuel i j size cap _ hb hf _ _ _ _
    obtain ⟨f, rfl⟩ : ∃ f, fuel = f + 1 := ⟨fuel - 1, by simp at hf; omega⟩
    unfold execute_redirection_loop
    simp only [List.map_nil, List.append_nil, hb, getElem?_mid, redir_run]
  | cons t ts ih =>
    intro P B io fuel i j size cap hre hb hf hj hcap hq hs
    obtain ⟨f, rfl⟩ : ∃ f, fuel = f + 1 := ⟨fuel - 1, by simp at hf; omega⟩
    obtain ⟨q, hq⟩ := hq
    have hre' : sys.realloc_ok = true ∨ ∀ x ∈ ts, redir_op x = none :=
      hre.imp id fun h x hx => h x (List.mem_cons_of_mem _ hx)
    rw [count_ops_cons] at hj
    have hcap1 : 100 ≤ (if size = 0 then i else cap) := by split <;> omega
    have hs1 : 0 ≤ (if size = 0 then (100 : Int) else size) - 1 := by split <;> omega
    have hq1 : ∃ q' : Nat, ((i + 1 : Nat) : Int) + ((if size = 0 then (100 : Int) else size) - 1)
        = 100 * ((q' : Int) + 1) := by
      split
      · exact ⟨q + 1, by push_cast; omega⟩
      · exact ⟨q, by push_cast; omega⟩
    have hf' : ts.length < f := by simp at hf; omega
    unfold execute_redirection_loop
    simp only [List.map_cons, List.append_assoc, List.cons_append, hb, getElem?_mid]
    by_cases hfail : size = 0 ∧ sys.realloc_ok = false
    · have hno : ∀ x ∈ t :: ts, redir_op x = none :=
        hre.resolve_left (by rw [hfail.2]; simp)
      rw [if_pos hfail, redir_run_no_ops sys _ io hno]
      simp
    rw [if_neg hfail, if_neg (by omega)]
    cases hop : redir_op t with
    | none =>
      simp only [hop, Option.isSome_none, Bool.false_eq_true, if_false, add_zero] at hj
      have := ih (P ++ [some t]) B io f (i + 1) j _ _ hre' (by simp; omega) hf' hj hcap1 hq1
        hs1
      simp only [List.append_assoc, List.singleton_append, List.cons_append,
        List.nil_append] at this
      simp only [this, redir_run, hop, List.cons_append]
    | some ko =>
      obtain ⟨kind, out⟩ := ko
      simp only [hop, Option.isSome_some, if_true] at hj
      simp only [set_mid]
      rw [if_neg (by omega)]
      cases ts with
      | nil =>
        simp only [List.map_nil, List.nil_append, getElem?_mid_succ, redir_run, hop,
          List.cons_append]
      | cons path ts' =>
        simp only [List.map_cons, List.cons_append, getElem?_mid_succ]
        cases ho : sys.open_ok path kind with
        | false => simp [redir_run, hop, ho]
        | true =>
          cases hd : sys.dup2_ok (.file path kind) with
          | false => simp [redir_run, hop, ho, hd]
          | true =>
            have := ih (P ++ [none]) B (redirect io path kind out) f (i + 1) (j + 1) _ _
              hre' (by simp; omega) hf' (by omega) hcap1 hq1 hs1
            simp only [List.append_assoc, List.singleton_append, List.map_cons,
              List.cons_append, List.nil_append] at this
            simp [redir_run, hop, ho, hd, this]

theorem redir_run_length (sys : Sys) :
    ∀ (s : List CStr) (io : Proc), (redir_run sys s io).1.length = s.length := by
  intro s
  induction s with
  | nil => intro io; rfl
  | cons t ts ih =>
    intro io
    unfold redir_run
    cases hop : redir_op t with
    | none => simp [ih]
    | some ko =>
      obtain ⟨kind, out⟩ := ko
      cases ts with
      | nil => rfl
      | cons path ts' =>
        cases ho : sys.open_ok path kind <;> cases hd : sys.dup2_ok (.file path kind) <;>
          simp [ih, ho, hd]

theorem read_argv_redir_run (sys : Sys) (B : Args) :
    ∀ (s : List CStr) (io : Proc),
      read_argv ((redir_run sys s io).1 ++ none :: B) = some (before_ops s) := by
  intro s
  induction s with
  | nil => intro io; rfl
  | cons t ts ih =>
    intro io
    unfold redir_run
    cases hop : redir_op t with
    | none => simp [read_argv, ih, before_ops, List.takeWhile_cons, hop]
    | some ko =>
      obtain ⟨kind, out⟩ := ko
      cases ts with
      | nil => simp [read_argv, before_ops, List.takeWhile_cons, hop]
      | cons path ts' =>
        cases ho : sys.open_ok path kind <;> cases hd : sys.dup2_ok (.file path kind) <;>
          simp [read_argv, before_ops, List.takeWhile_cons, hop, ho, hd]

theorem before_ops_no_ops {s : List CStr} (h : ∀ t ∈ s, redir_op t = none) :
    before_ops s = s := by
  unfold before_ops
  rw [List.takeWhile_eq_self_iff]
  intro x hx
  simp [h x hx]

/-- On a stage stored in `args`, with fewer than 100 redirection operators and
`realloc` succeeding (or no operator at all), `execute_redirection` returns and
leaves the cells `redir_run` describes, and the vector at the stage's first
cell is then the tokens before the first operator. -/
theorem execute_redirection_eq (sys : Sys) (P B : Args) (s : List CStr) (io : Proc)
    (hre : sys.realloc_ok = true ∨ ∀ t ∈ s, redir_op t = none) (hops : count_ops s < 100) :
    execute_redirection sys (P ++ s.map some ++ none :: B) P.length io
      = .ok { args := P ++ (redir_run sys s io).1 ++ none :: B
              io := (redir_run sys s io).2 } ∧
    argv_at (P ++ (redir_run sys s io).1 ++ none :: B) P.length = some (before_ops s) := by
  constructor
  · unfold execute_redirection
    exact execute_redirection_loop_eq sys P.length s P B io _ 0 0 100 100 hre rfl
      (by simp; omega) (by omega) (by omega) ⟨0, by norm_num⟩ (by norm_num)
  · unfold argv_at
    rw [List.append_assoc, List.drop_left]
    exact read_argv_redir_run sys B s io

/-! ### `build_pipes` -/

theorem cell_is_iff {cmds : List command_line} {m start : Nat} {flag : Bool} :
    cell_is cmds m start flag ↔
      ∃ c, cmds[m]? = some c ∧ c.tokens = some start ∧ c.stdout_pipe = flag := by
  unfold cell_is
  constructor
  · intro h
    obtain ⟨c, hc, e⟩ := Option.map_eq_some'.1 h
    exact ⟨c, hc, (Prod.mk.inj e).1, (Prod.mk.inj e).2⟩
  · rintro ⟨c, hc, e1, e2⟩
    rw [hc, Option.map_some', e1, e2]

theorem blocks_cons (s : List CStr) (rest : List (List CStr)) :
    blocks (s :: rest) = s.map some ++ none :: blocks rest := by
  simp [blocks]

theorem blocks_append_single (done : List (List CStr)) (cur : List CStr) :
    blocks (done ++ [cur]) = blocks done ++ cur.map some ++ [none] := by
  simp [blocks]

theorem blocks_length (l : List (List CStr)) : (blocks l).length = start_of l l.length := by
  unfold start_of
  rw [List.take_length]
  induction l with
  | nil => rfl
  | cons s r ih =>
    simp only [blocks, List.map_cons, List.flatten_cons, List.length_append, List.length_map,
      List.length_singleton, List.sum_cons] at ih ⊢
    rw [ih]

theorem start_of_append_le (l l' : List (List CStr)) {m : Nat} (h : m ≤ l.length) :
    start_of (l ++ l') m = start_of l m := by
  unfold start_of
  rw [List.take_append_of_le_length h]

theorem cell_is_set_ne {cmds : List command_line} {m n start : Nat} {flag : Bool}
    (c : command_line) (h : n ≠ m) :
    cell_is (cmds.set n c) m start flag ↔ cell_is cmds m start flag := by
  unfold cell_is
  rw [List.getElem?_set_ne h]

theorem cell_is_realloc {cmds : List command_line} {m i start : Nat} {flag : Bool}
    (h1 : m < cmds.length) (h2 : m < i) :
    cell_is (realloc_cells cmds i) m start flag ↔ cell_is cmds m start flag := by
  unfold cell_is realloc_cells
  rw [List.getElem?_append_left (by simp; omega), List.getElem?_take_of_lt h2]

theorem realloc_cells_length (cmds : List command_line) (i : Nat) :
    (realloc_cells cmds i).length = i := by
  simp [realloc_cells]
  omega

theorem splitOn_cons_pipe (post : List CStr) :
    (pipe_tok :: post).splitOn pipe_tok = [] :: post.splitOn pipe_tok := by
  simp [List.splitOn, List.splitOnP_cons]

theorem splitOn_cons_other {t : CStr} (h : t ≠ pipe_tok) (post : List CStr) :
    (t :: post).splitOn pipe_tok = (post.splitOn pipe_tok).modifyHead (t :: ·) := by
  simp [List.splitOn, List.splitOnP_cons, h]

theorem start_of_last_irrelevant (done : List (List CStr)) (cur cur' : List CStr) {m : Nat}
    (h : m ≤ done.length) :
    start_of (done ++ [cur]) m = start_of (done ++ [cur']) m := by
  rw [start_of_append_le _ _ h, start_of_append_le _ _ h]

/-- The loop of `build_pipes`, in the middle of a token list with the stages
`done` closed and the tokens `cur` of the open stage read: with fewer than 100
stages in all it returns a pipeline that holds the stages of the whole list. -/
theorem build_pipes_loop_holds :
    ∀ (post : List CStr) (done : List (List CStr)) (cur : List CStr) (fuel : Nat) (size : Int)
      (cmds : List command_line),
      post.length < fuel → done.length + post.count pipe_tok < 100 → 100 ≤ cmds.length →
      (∃ q : Nat, (((blocks done).length + cur.length : Nat) : Int) + size
        = 100 * ((q : Int) + 1)) →
      0 ≤ size →
      (∀ m, m ≤ done.length → cell_is cmds m (start_of (done ++ [cur]) m) true) →
      ∃ p, build_pipes_loop true fuel ((blocks done).length + cur.length) done.length size
          (blocks done ++ cur.map some ++ post.map some ++ [none]) cmds = .ok (some p) ∧
        p.holds (done ++ (post.splitOn pipe_tok).modifyHead (cur ++ ·)) := by
  intro post
  induction post with
  | nil =>
    intro done cur fuel size cmds hf _ _ _ _ hcells
    obtain ⟨f, rfl⟩ : ∃ f, fuel = f + 1 := ⟨fuel - 1, by omega⟩
    have hget : (blocks done ++ cur.map some ++ ([] : List CStr).map some ++ [none])[
        (blocks done).length + cur.length]? = some none := by
      have := getElem?_mid (blocks done ++ cur.map some) (none : Option CStr) []
      simpa using this
    obtain ⟨c, hc, hct, hcf⟩ := cell_is_iff.1 (hcells done.length (le_refl _))
    have hsp : ([] : List CStr).splitOn pipe_tok = [[]] := rfl
    unfold build_pipes_loop
    simp only [hget, hc]
    rw [hsp, List.modifyHead_cons, List.append_nil]
    refine ⟨_, rfl, ?_, ?_⟩
    · simp [blocks_append_single]
    · intro m hm
      simp only [List.length_append, List.length_singleton] at hm ⊢
      by_cases hmj : m = done.length
      · subst hmj
        rw [cell_is_iff]
        refine ⟨{ c with stdout_pipe := false }, ?_, hct, by simp⟩
        rw [List.getElem?_set_self (List.getElem?_eq_some_iff.1 hc).1]
      · rw [cell_is_set_ne _ (Ne.symm hmj)]
        have := hcells m (by omega)
        have e : decide (m + 1 < done.length + 1) = true := by simp; omega
        rw [e]
        exact this
  | cons t post' ih =>
    intro done cur fuel size cmds hf hcount hlen hq hs hcells
    obtain ⟨f, rfl⟩ : ∃ f, fuel = f + 1 := ⟨fuel - 1, by omega⟩
    obtain ⟨q, hq⟩ := hq
    have hf' : post'.length < f := by simp at hf; omega
    have hget : (blocks done ++ cur.map some ++ (t :: post').map some ++ [none])[
        (blocks done).length + cur.length]? = some (some t) := by
      have := getElem?_mid (blocks done ++ cur.map some) (some t) (post'.map some ++ [none])
      simpa using this
    have hlen1 : 100 ≤ (if size = 0 then
        realloc_cells cmds ((blocks done).length + cur.length) else cmds).length := by
      split
      · rw [realloc_cells_length]; omega
      · exact hlen
    have hcells1 : ∀ m, m ≤ done.length →
        cell_is (if size = 0 then realloc_cells cmds ((blocks done).length + cur.length)
          else cmds) m (start_of (done ++ [cur]) m) true := by
      intro m hm
      split
      · rw [cell_is_realloc (by omega) (by omega)]; exact hcells m hm
      · exact hcells m hm
    have hs1 : 0 ≤ (if size = 0 then (100 : Int) else size) - 1 := by split <;> omega
    have hq1 : ∃ q' : Nat, (((blocks done).length + cur.length + 1 : Nat) : Int)
        + ((if size = 0 then (100 : Int) else size) - 1) = 100 * ((q' : Int) + 1) := by
      split
      · exact ⟨q + 1, by push_cast at hq ⊢; omega⟩
      · exact ⟨q, by push_cast at hq ⊢; omega⟩
    unfold build_pipes_loop
    simp only [hget, Bool.true_eq_false, and_false, if_false]
    generalize (if size = 0 then realloc_cells cmds ((blocks done).length + cur.length)
      else cmds) = cmds1 at hlen1 hcells1
    generalize (if size = 0 then (100 : Int) else size) - 1 = size1 at hs1 hq1
    by_cases ht : t = pipe_tok
    · subst ht
      rw [List.count_cons_self] at hcount
      rw [if_pos rfl]
      have hlt : done.length + 1 < cmds1.length := by omega
      rw [List.getElem?_eq_getElem hlt]
      have hset : (blocks done ++ cur.map some ++ (pipe_tok :: post').map some ++ [none]).set
          ((blocks done).length + cur.length) none
          = blocks (done ++ [cur]) ++ ([] : List CStr).map some ++ post'.map some ++ [none] := by
        have := set_mid (blocks done ++ cur.map some) (some pipe_tok) none
          (post'.map some ++ [none])
        simp only [List.length_append, List.length_map] at this
        simp only [List.map_cons, List.append_assoc, List.cons_append, List.map_nil,
          List.nil_append, blocks_append_single, List.singleton_append] at this ⊢
        exact this
      have hidx : (blocks done).length + cur.length + 1
          = (blocks (done ++ [cur])).length + ([] : List CStr).length := by
        simp [blocks_append_single]
        omega
      have hj : done.length + 1 = (done ++ [cur]).length := by simp
      have hrec := ih (done ++ [cur]) [] f size1
        (cmds1.set (done.length + 1)
          { cmds1[done.length + 1] with
            tokens := some ((blocks done).length + cur.length + 1), stdout_pipe := true })
        hf' (by rw [← hj]; omega) (by rw [List.length_set]; exact hlen1)
        (by rw [← hidx]; exact hq1) hs1
        (by
          intro m hm
          rw [← hj] at hm
          by_cases hmj : m = done.length + 1
          · subst hmj
            rw [cell_is_iff]
            refine ⟨_, List.getElem?_set_self hlt, ?_, rfl⟩
            simp only
            rw [hidx, hj, List.length_nil, add_zero, blocks_length,
              start_of_append_le _ _ (le_refl _)]
          · rw [cell_is_set_ne _ (Ne.symm hmj),
              start_of_append_le _ _ (by rw [← hj]; omega)]
            exact hcells1 m (by omega))
      rw [← hidx, ← hj, ← hset] at hrec
      obtain ⟨p, hp1, hp2⟩ := hrec
      refine ⟨p, hp1, ?_⟩
      rw [splitOn_cons_pipe, List.modifyHead_cons, List.append_nil]
      have e : (fun x : List CStr => ([] : List CStr) ++ x) = id := by
        funext x; rfl
      rw [e, List.modifyHead_id] at hp2
      simpa using hp2
    · rw [List.count_cons_of_ne (Ne.symm ht)] at hcount
      rw [if_neg ht]
      have hargs : blocks done ++ cur.map some ++ (t :: post').map some ++ [none]
          = blocks done ++ (cur ++ [t]).map some ++ post'.map some ++ [none] := by
        simp
      have hidx : (blocks done).length + cur.length + 1
          = (blocks done).length + (cur ++ [t]).length := by
        simp
        omega
      have hrec := ih done (cur ++ [t]) f size1 cmds1 hf' hcount hlen1
        (by rw [← hidx]; exact hq1) hs1
        (by
          intro m hm
          rw [start_of_last_irrelevant done (cur ++ [t]) cur hm]
          exact hcells1 m hm)
      rw [← hidx, ← hargs] at hrec
      obtain ⟨p, hp1, hp2⟩ := hrec
      refine ⟨p, hp1, ?_⟩
      rw [splitOn_cons_other ht, List.modifyHead_modifyHead]
      have e : ((fun x : List CStr => cur ++ x) ∘ fun x => t :: x)
          = fun x : List CStr => cur ++ [t] ++ x := by
        funext x; simp
      rw [e]
      exact hp2

/-- For a token list with fewer than 100 tokens `|` (and `realloc` succeeding),
`build_pipes` returns a pipeline that holds the runs of tokens between the
tokens `|`. The flag `pipes` is set as `main` sets it: whenever some token is
`|`. -/
theorem build_pipes_holds (toks : List CStr) (pipes : Bool)
    (hk : toks.count pipe_tok < 100) (hp : pipes = true ∨ pipe_tok ∉ toks) :
    ∃ p, build_pipes true (args_of toks) pipes = .ok (some p) ∧
      p.holds (toks.splitOn pipe_tok) := by
  cases pipes with
  | true =>
    have h := build_pipes_loop_holds toks [] [] ((args_of toks).length + 1) 100
      ((List.replicate 100 command_line.zero).set 0
        { command_line.zero with tokens := some 0, stdout_pipe := true })
      (by simp [args_of]; omega) (by simpa using hk) (by simp) ⟨0, by simp [blocks]⟩
      (by norm_num)
      (by
        intro m hm
        have : m = 0 := by simpa using hm
        subst this
        decide)
    have e : (fun x : List CStr => ([] : List CStr) ++ x) = id := by
      funext x; rfl
    obtain ⟨p, hp1, hp2⟩ := h
    rw [e, List.modifyHead_id, List.nil_append] at hp2
    exact ⟨p, hp1, hp2⟩
  | false =>
    have hno : pipe_tok ∉ toks := hp.resolve_left (by simp)
    have hs : toks.splitOn pipe_tok = [toks] := by
      unfold List.splitOn
      apply List.splitOnP_eq_single
      intro x hx hx'
      exact hno (by rw [← eq_of_beq hx']; exact hx)
    refine ⟨_, rfl, ?_⟩
    rw [hs]
    refine ⟨by simp [args_of, blocks], ?_⟩
    intro m hm
    have : m = 0 := by simpa using hm
    subst this
    rfl

theorem read_argv_block (s : List CStr) (B : Args) :
    read_argv (s.map some ++ none :: B) = some s := by
  induction s with
  | nil => rfl
  | cons t ts ih => simp [read_argv, ih]

theorem blocks_drop :
    ∀ (stages : List (List CStr)) (m : Nat), m ≤ stages.length →
      (blocks stages).drop (start_of stages m) = blocks (stages.drop m) := by
  intro stages
  induction stages with
  | nil => intro m hm; simp at hm; subst hm; rfl
  | cons s rest ih =>
    intro m hm
    cases m with
    | zero => rfl
    | succ m =>
      have := ih m (by simpa using hm)
      simp only [start_of, List.take_succ_cons, List.map_cons, List.sum_cons, List.drop_succ_cons,
        blocks_cons] at this ⊢
      rw [show s.length + 1 + (List.map (fun s => s.length + 1) (List.take m rest)).sum
          = (s.map some ++ [none]).length
            + (List.map (fun s => s.length + 1) (List.take m rest)).sum by simp,
        show s.map some ++ none :: blocks rest = (s.map some ++ [none]) ++ blocks rest by simp,
        List.drop_append]
      exact this

/-- In a pipeline that holds `stages`, the vector cell `m` of `cmds` points at
is stage `m`. -/
theorem holds_argv {p : Pipeline} {stages : List (List CStr)} (h : p.holds stages)
    {m : Nat} {s : List CStr} (hs : stages[m]? = some s) :
    ∃ c, p.cmds[m]? = some c ∧ c.tokens.bind (argv_at p.args) = some s ∧
      c.stdout_pipe = decide (m + 1 < stages.length) := by
  have hm : m < stages.length := (List.getElem?_eq_some_iff.1 hs).1
  obtain ⟨c, hc, hct, hcf⟩ := cell_is_iff.1 (h.2 m hm)
  refine ⟨c, hc, ?_, hcf⟩
  rw [hct, Option.bind, h.1]
  unfold argv_at
  rw [blocks_drop stages m (le_of_lt hm)]
  have hd : stages.drop m = s :: stages.drop (m + 1) := by
    rw [List.drop_eq_getElem_cons hm]
    congr 1
    exact Option.some.inj ((List.getElem?_eq_getElem hm).symm.trans hs)
  rw [hd, blocks_cons]
  exact read_argv_block s _

/-! ### `execute_pipeline` on a list of stages -/

theorem start_of_succ {stages : List (List CStr)} {num : Nat} {s : List CStr}
    {rest : List (List CStr)} (h : stages.drop num = s :: rest) :
    start_of stages (num + 1) = start_of stages num + (s.length + 1) := by
  have hs : stages[num]? = some s := by
    rw [← List.head?_drop, h]; rfl
  unfold start_of
  rw [List.take_succ, hs]
  simp

/-- The loop of `execute_pipeline`, entered at stage `num` of a pipeline that
holds `stages`, computes `pipeline_run`. -/
theorem execute_pipeline_loop_eq (sys : Sys) (cmds : List command_line)
    (stages : List (List CStr))
    (hre : sys.realloc_ok = true ∨ ∀ s ∈ stages, ∀ t ∈ s, redir_op t = none)
    (hcells : ∀ m, m < stages.length →
      cell_is cmds m (start_of stages m) (decide (m + 1 < stages.length)))
    (hops : ∀ s ∈ stages, count_ops s < 100) :
    ∀ (rest : List (List CStr)) (s : List CStr) (num : Nat) (P : Args) (io : Proc) (fuel : Nat),
      stages.drop num = s :: rest → P.length = start_of stages num → rest.length < fuel →
      execute_pipeline_loop sys cmds fuel num (P ++ blocks (s :: rest)) io
        = .ok (pipeline_run sys num (s :: rest) io) := by
  intro rest
  induction rest with
  | nil =>
    intro s num P io fuel hdrop hP hf
    obtain ⟨f, rfl⟩ : ∃ f, fuel = f + 1 := ⟨fuel - 1, by omega⟩
    have hlen : stages.length = num + 1 := by
      have := congrArg List.length hdrop
      simp at this; omega
    have hmem : s ∈ stages := List.mem_of_mem_drop (by rw [hdrop]; exact List.mem_cons_self _ _)
    obtain ⟨c, hc, hct, hcf⟩ := cell_is_iff.1 (hcells num (by omega))
    obtain ⟨e1, e2⟩ := execute_redirection_eq sys P (blocks []) s io
      (hre.imp id fun h => h s hmem) (hops s hmem)
    unfold execute_pipeline_loop
    cases hp : sys.pipe_ok num with
    | false => simp [pipeline_run, hp]
    | true =>
      simp only [hc, hct, ← hP, blocks_cons, ← List.append_assoc, e1, Res.bind, e2, hcf, hlen,
        pipeline_run, hp]
      simp
  | cons s' rest' ih =>
    intro s num P io fuel hdrop hP hf
    obtain ⟨f, rfl⟩ : ∃ f, fuel = f + 1 := ⟨fuel - 1, by simp at hf; omega⟩
    have hlen : stages.length = num + 1 + (rest'.length + 1) := by
      have := congrArg List.length hdrop
      simp at this; omega
    have hmem : s ∈ stages := List.mem_of_mem_drop (by rw [hdrop]; exact List.mem_cons_self _ _)
    obtain ⟨c, hc, hct, hcf⟩ := cell_is_iff.1 (hcells num (by omega))
    obtain ⟨e1, e2⟩ := execute_redirection_eq sys P (blocks (s' :: rest')) s io
      (hre.imp id fun h => h s hmem) (hops s hmem)
    have hdrop' : stages.drop (num + 1) = s' :: rest' := by
      rw [← List.drop_drop 1 num, hdrop]; rfl
    have hP' : (P ++ (redir_run sys s io).1 ++ [none]).length = start_of stages (num + 1) := by
      rw [start_of_succ hdrop, ← hP]
      simp [redir_run_length]
    have hrec := ih s' (num + 1) (P ++ (redir_run sys s io).1 ++ [none])
      { (redir_run sys s io).2 with stdin := .pipe_read num } f hdrop' hP'
      (by simp at hf; omega)
    simp only [List.append_assoc, List.singleton_append] at hrec
    unfold execute_pipeline_loop
    cases hp : sys.pipe_ok num with
    | false => simp [pipeline_run, hp]
    | true =>
      have hflag : c.stdout_pipe = true := by rw [hcf]; simp; omega
      cases hd : sys.dup2_ok (.pipe_read num) with
      | false =>
        simp only [hc, hct, ← hP, blocks_cons s, ← List.append_assoc, e1, Res.bind, e2, hflag,
          pipeline_run, hp, hd]
        simp
      | true =>
        simp only [hc, hct, ← hP, blocks_cons s, ← List.append_assoc, e1, Res.bind, e2, hflag,
          pipeline_run, hp, hd]
        simp only [List.append_assoc, hrec]
        simp

/-- On a pipeline that holds the non-empty list `stages`, each stage with fewer
than 100 redirection operators, `execute_pipeline` returns and its events are
those of `pipeline_run`. -/
theorem execute_pipeline_eq (sys : Sys) (p : Pipeline) (stages : List (List CStr)) (io : Proc)
    (h : p.holds stages) (hne : stages ≠ [])
    (hre : sys.realloc_ok = true ∨ ∀ s ∈ stages, ∀ t ∈ s, redir_op t = none)
    (hops : ∀ s ∈ stages, count_ops s < 100) :
    execute_pipeline sys p io = .ok (pipeline_run sys 0 stages io) := by
  obtain ⟨hargs, hcells⟩ := h
  cases stages with
  | nil => exact absurd rfl hne
  | cons s rest =>
    have hfuel : rest.length < p.cmds.length + 1 := by
      obtain ⟨c, hc, -, -⟩ := cell_is_iff.1 (hcells rest.length (by simp))
      have := (List.getElem?_eq_some_iff.1 hc).1
      omega
    have := execute_pipeline_loop_eq sys p.cmds (s :: rest) hre hcells hops rest s 0 [] io
      (p.cmds.length + 1) rfl rfl hfuel
    unfold execute_pipeline
    rw [hargs]
    exact this

theorem execvp_exec_info (sys : Sys) (num : Nat) (argv : List CStr) (io : Proc)
    (child : Bool) (h : argv ≠ []) :
    (execvp sys num argv io child).filterMap Event.exec_info = [(num, argv, io)] := by
  unfold execvp
  have : argv.isEmpty = false := by
    cases argv with
    | nil => exact absurd rfl h
    | cons _ _ => rfl
  cases hx : sys.exec_ok argv <;> simp [this, Event.exec_info]

theorem child_events_exec_info (sys : Sys) (num : Nat) (hf : sys.fork_ok num = true)
    (hd : sys.dup2_ok (.pipe_write num) = true) (argv : List CStr) (io : Proc)
    (h : argv ≠ []) :
    (child_events sys num argv io).filterMap Event.exec_info
      = [(num, argv, { io with stdout := .pipe_write num })] := by
  unfold child_events
  simp only [hf, hd, Bool.true_eq_false, if_false]
  exact execvp_exec_info sys num argv _ true h

/-- With no redirection operator, no empty stage and every `pipe`, `fork` and
`dup2` succeeding, the `execvp` calls of `pipeline_run` are one per stage,
chained by the pipes. -/
theorem pipeline_run_chain (sys : Sys) (hp : ∀ n, sys.pipe_ok n = true)
    (hf : ∀ n, sys.fork_ok n = true) (hd : ∀ st, sys.dup2_ok st = true) :
    ∀ (stages : List (List CStr)) (num : Nat) (io : Proc),
      (∀ s ∈ stages, ∀ t ∈ s, redir_op t = none) → (∀ s ∈ stages, s ≠ []) →
      (pipeline_run sys num stages io).filterMap Event.exec_info
        = (stages.enumFrom num).map fun x =>
            (x.1, x.2,
              { stdin := if x.1 = num then io.stdin else .pipe_read (x.1 - 1)
                stdout := if x.1 + 1 < num + stages.length then .pipe_write x.1
                  else io.stdout }) := by
  intro stages
  induction stages with
  | nil => intro num io _ _; rfl
  | cons s rest ih =>
    intro num io hno hne
    have hs : ∀ t ∈ s, redir_op t = none := hno s (List.mem_cons_self _ _)
    have hs0 : s ≠ [] := hne s (List.mem_cons_self _ _)
    have hrest : ∀ s' ∈ rest, ∀ t ∈ s', redir_op t = none :=
      fun s' h' => hno s' (List.mem_cons_of_mem _ h')
    have hrest0 : ∀ s' ∈ rest, s' ≠ [] := fun s' h' => hne s' (List.mem_cons_of_mem _ h')
    cases rest with
    | nil =>
      unfold pipeline_run
      rw [redir_run_no_ops sys s io hs, before_ops_no_ops hs]
      simp only [hp, Bool.true_eq_false, if_false, execvp_exec_info sys num s io false hs0]
      simp
    | cons s' rest' =>
      unfold pipeline_run
      rw [redir_run_no_ops sys s io hs, before_ops_no_ops hs]
      simp only [hp, hd, Bool.true_eq_false, if_false, List.filterMap_append,
        child_events_exec_info sys num (hf num) (hd _) s io hs0, ih (num + 1) _ hrest hrest0]
      rw [show List.enumFrom num (s :: s' :: rest')
        = (num, s) :: List.enumFrom (num + 1) (s' :: rest') from rfl, List.map_cons,
        List.singleton_append]
      refine congrArg₂ _ ?_ ?_
      · simp
      · apply List.map_congr_left
        intro x hx
        have hi := (List.mem_enumFrom (x := x.2) (i := x.1) hx).1
        have h2 : ¬ (x.1 = num) := by omega
        have h3 : num + 1 + (s' :: rest').length = num + (s :: s' :: rest').length := by
          simp only [List.length_cons]; omega
        rw [h3, if_neg h2]
        by_cases h4 : x.1 = num + 1
        · rw [if_pos h4, h4]; rfl
        · rw [if_neg h4]

/-- C9 (amended): for every pipeline of `N ≥ 1` stages (each a program name with its
arguments) with no redirection operator, when every `pipe`, `fork` and `dup2`
call succeeds, `execute_pipeline` returns and calls `execvp` once per stage, in
order: stage `i < N - 1` with standard output on the write end of pipe `i`,
stage `i + 1` with standard input on the read end of that pipe, stage `0` with
the standard input and the last stage with the standard output of the process
that called `execute_pipeline`. -/
theorem C9_execute_pipeline_wiring (sys : Sys) (p : Pipeline) (stages : List (List CStr))
    (io : Proc) (hholds : p.holds stages) (hN : 1 ≤ stages.length)
    (hprog : ∀ s ∈ stages, s ≠ []) (hno : ∀ s ∈ stages, ∀ t ∈ s, redir_op t = none)
    (hp : ∀ n, sys.pipe_ok n = true) (hf : ∀ n, sys.fork_ok n = true)
    (hd : ∀ st, sys.dup2_ok st = true) :
    ∃ trace, execute_pipeline sys p io = .ok trace ∧
      trace.filterMap Event.exec_info = stages.enum.map fun x =>
        (x.1, x.2,
          { stdin := if x.1 = 0 then io.stdin else .pipe_read (x.1 - 1)
            stdout := if x.1 + 1 < stages.length then .pipe_write x.1 else io.stdout }) := by
  have hne : stages ≠ [] := by
    intro h; rw [h] at hN; simp at hN
  have hops : ∀ s ∈ stages, count_ops s < 100 := by
    intro s hs
    have : count_ops s = 0 := by
      unfold count_ops
      rw [List.length_eq_zero, List.filter_eq_nil_iff]
      intro t ht
      simp [hno s hs t ht]
    omega
  refine ⟨_, execute_pipeline_eq sys p stages io hholds hne (Or.inr hno) hops, ?_⟩
  have := pipeline_run_chain sys hp hf hd stages 0 io hno hprog
  simpa [List.enum] using this

/-- Witness of C9: the pipeline `cmd1 | cmd2 | cmd3`. -/
theorem C9_witness :
    ∃ trace,
      execute_pipeline Sys.all_ok
          { args := blocks [["cmd1".toList], ["cmd2".toList], ["cmd3".toList]]
            cmds := [{ tokens := some 0, stdout_pipe := true, stdout_file := none },
                     { tokens := some 2, stdout_pipe := true, stdout_file := none },
                     { tokens := some 4, stdout_pipe := false, stdout_file := none }] }
          Proc.ambient = .ok trace ∧
      trace.filterMap Event.exec_info =
        [(0, ["cmd1".toList], { stdin := .ambient_in, stdout := .pipe_write 0 }),
         (1, ["cmd2".toList], { stdin := .pipe_read 0, stdout := .pipe_write 1 }),
         (2, ["cmd3".toList], { stdin := .pipe_read 1, stdout := .ambient_out })] :=
  C9_execute_pipeline_wiring Sys.all_ok _ [["cmd1".toList], ["cmd2".toList], ["cmd3".toList]]
    Proc.ambient (by decide) (by decide) (by decide) (by decide) (fun _ => rfl) (fun _ => rfl)
    (fun _ => rfl)

/-- C9 (counterexample): the pipeline of the three stages `[cmd1]`, `[]`,
`[cmd2]`, which `build_pipes` returns for `cmd1 | | cmd2`, has no redirection,
and every call succeeds. `execute_pipeline` calls `execvp` for stage 0 and for
stage 2 only: the child forked for the empty stage 1 hands a null program
name to `execvp` and dies, so stage 1 is not run, nothing reads pipe 0 and
nothing writes pipe 1. -/
theorem C9_empty_stage_is_not_run :
    Pipeline.holds
      { args := blocks [["cmd1".toList], [], ["cmd2".toList]]
        cmds := [{ tokens := some 0, stdout_pipe := true, stdout_file := none },
                 { tokens := some 2, stdout_pipe := true, stdout_file := none },
                 { tokens := some 3, stdout_pipe := false, stdout_file := none }] }
      [["cmd1".toList], [], ["cmd2".toList]] ∧
    execute_pipeline Sys.all_ok
        { args := blocks [["cmd1".toList], [], ["cmd2".toList]]
          cmds := [{ tokens := some 0, stdout_pipe := true, stdout_file := none },
                   { tokens := some 2, stdout_pipe := true, stdout_file := none },
                   { tokens := some 3, stdout_pipe := false, stdout_file := none }] }
        Proc.ambient
      = .ok [.exec 0 ["cmd1".toList] { stdin := .ambient_in, stdout := .pipe_write 0 } true,
             .segv 1 true,
             .exec 2 ["cmd2".toList] { stdin := .pipe_read 1, stdout := .ambient_out } false] ∧
    [Event.exec 0 ["cmd1".toList] { stdin := .ambient_in, stdout := .pipe_write 0 } true,
      .segv 1 true,
      .exec 2 ["cmd2".toList] { stdin := .pipe_read 1, stdout := .ambient_out } false].filterMap
        Event.exec_info
      ≠ [["cmd1".toList], [], ["cmd2".toList]].enum.map fun x =>
        (x.1, x.2,
          { stdin := if x.1 = 0 then Proc.ambient.stdin else .pipe_read (x.1 - 1)
            stdout := if x.1 + 1 < 3 then .pipe_write x.1 else Proc.ambient.stdout }) := by
  refine ⟨by decide, by decide, by decide⟩

/-! ### Building and launching pipelines -/

theorem intercalate_splitOn_pipe (toks : List CStr) :
    [pipe_tok].intercalate (toks.splitOn pipe_tok) = toks := by
  have e : (List.instBEq : BEq CStr) = instBEqOfDecidableEq := by
    have : ∀ a b : CStr, @BEq.beq _ List.instBEq a b = @BEq.beq _ instBEqOfDecidableEq a b := by
      intro a b
      rw [Bool.eq_iff_iff]
      simp
    cases h1 : (List.instBEq : BEq CStr) with
    | mk f =>
      cases h2 : (instBEqOfDecidableEq : BEq CStr) with
      | mk g =>
        congr
        funext a b
        have := this a b
        rw [h1, h2] at this
        exact this
  have := List.intercalate_splitOn toks pipe_tok
  rw [← e] at this
  exact this

/-- For a token list with fewer than 100 tokens `|`, `build_pipes` returns the
stages between the tokens `|`: one more than there are tokens `|`, each the
vector its cell of `cmds` points at, `stdout_pipe` set on all but the last, and
joining them with `|` gives the token list back. -/
theorem build_pipes_stages (toks : List CStr) (pipes : Bool)
    (hk : toks.count pipe_tok < 100) (hp : pipes = true ∨ pipe_tok ∉ toks) :
    ∃ p, build_pipes true (args_of toks) pipes = .ok (some p) ∧
      (toks.splitOn pipe_tok).length = toks.count pipe_tok + 1 ∧
      [pipe_tok].intercalate (toks.splitOn pipe_tok) = toks ∧
      ∀ m s, (toks.splitOn pipe_tok)[m]? = some s →
        ∃ c, p.cmds[m]? = some c ∧ c.tokens.bind (argv_at p.args) = some s ∧
          c.stdout_pipe = decide (m < toks.count pipe_tok) := by
  obtain ⟨p, h1, h2⟩ := build_pipes_holds toks pipes hk hp
  have hlen : (toks.splitOn pipe_tok).length = toks.count pipe_tok + 1 := by
    clear h1 h2 hk hp
    induction toks with
    | nil => rfl
    | cons t ts ih =>
      by_cases ht : t = pipe_tok
      · subst ht
        rw [splitOn_cons_pipe, List.count_cons_self, List.length_cons, ih]
      · rw [splitOn_cons_other ht, List.count_cons_of_ne (Ne.symm ht), List.length_modifyHead, ih]
  refine ⟨p, h1, hlen, intercalate_splitOn_pipe toks, ?_⟩
  intro m s hs
  obtain ⟨c, hc, e1, e2⟩ := holds_argv h2 hs
  refine ⟨c, hc, e1, ?_⟩
  rw [e2, hlen]
  simp

/-- C6 (amended): for every token list in which some stage is empty, with fewer
than 100 tokens `|`, `realloc` succeeding and a first token that is neither a
built-in command nor a history reference (beginning with `!`), `build_pipes`
reports no error: it returns a pipeline that holds the stages between the
tokens `|`, the empty one as a stage whose vector is empty, and the main loop
goes on to `fork` for the command. -/
theorem C6_build_pipes_accepts_empty_stage (sys : Sys) (a0 : CStr) (rest : List CStr)
    (hb : a0 ∉ builtins) (hbang : a0.head? ≠ some '!') (hre : sys.realloc_ok = true)
    (hk : (a0 :: rest).count pipe_tok < 100) (hempty : [] ∈ (a0 :: rest).splitOn pipe_tok) :
    ∃ p, build_pipes sys.realloc_ok (args_of (a0 :: rest)) true = .ok (some p) ∧
      main_dispatch sys (a0 :: rest) true = .ok (.fork p) ∧
      p.holds ((a0 :: rest).splitOn pipe_tok) ∧
      ∃ (m : Nat) (c : command_line),
        p.cmds[m]? = some c ∧ c.tokens.bind (argv_at p.args) = some [] := by
  obtain ⟨p, h1, h2⟩ := build_pipes_holds (a0 :: rest) true hk (Or.inl rfl)
  rw [hre]
  refine ⟨p, h1, ?_, h2, ?_⟩
  · simp only [builtins, List.mem_cons, List.mem_singleton, not_or, List.not_mem_nil,
      or_false] at hb
    obtain ⟨b1, b2, b3, b4⟩ := hb
    unfold main_dispatch
    simp only [if_neg hbang, if_neg b1, if_neg b2, if_neg b3, if_neg b4, hre, h1, Res.bind]
  · obtain ⟨m, hm⟩ := List.mem_iff_getElem?.1 hempty
    obtain ⟨c, hc, e1, -⟩ := holds_argv h2 hm
    exact ⟨m, c, hc, e1⟩

/-- Witness of C6: the tokens of `cmd1 | | cmd2`. -/
theorem C6_witness :
    ∃ p, build_pipes Sys.all_ok.realloc_ok
        (args_of ("cmd1".toList :: [pipe_tok, pipe_tok, "cmd2".toList])) true = .ok (some p) ∧
      main_dispatch Sys.all_ok ("cmd1".toList :: [pipe_tok, pipe_tok, "cmd2".toList]) true
        = .ok (.fork p) ∧
      p.holds (("cmd1".toList :: [pipe_tok, pipe_tok, "cmd2".toList]).splitOn pipe_tok) ∧
      ∃ (m : Nat) (c : command_line),
        p.cmds[m]? = some c ∧ c.tokens.bind (argv_at p.args) = some [] :=
  C6_build_pipes_accepts_empty_stage Sys.all_ok "cmd1".toList [pipe_tok, pipe_tok, "cmd2".toList]
    (by decide) (by decide) rfl (by decide) (by decide)

/-- C16: after `hist_init C` (`C ≥ 1`) and one `hist_add` per command of
`cmds` (`N` commands), `hist_last_cnum` reads `integers[end]`. With no command
added `end` is `-1` and the read is outside the array: the call is a fault, it
does not return `0`. With `N ≥ 1` it returns `N` reduced to 32 bits, which is
`N` for fewer than `2^32` commands. -/
theorem C16_hist_last_cnum (C : Nat) (cmds : List CStr) (hC : 1 ≤ C) :
    ∃ s, hist_run C cmds = some s ∧
      hist_last_cnum s = (if cmds = [] then .fault else .ok ((cmds.length : Int) % 2 ^ 32)) ∧
      (cmds ≠ [] → cmds.length < 2 ^ 32 → hist_last_cnum s = .ok (cmds.length : Int)) := by
  obtain ⟨s, hs, hi⟩ := hist_run_inv hC cmds
  have key : hist_last_cnum s =
      (if cmds = [] then .fault else .ok ((cmds.length : Int) % 2 ^ 32)) := by
    by_cases hN : cmds = []
    · subst hN
      have he : s.end_ = -1 := by simpa using hi.end_eq
      simp [hist_last_cnum, rd, he]
    · have hlen : 0 < cmds.length := List.length_pos.2 hN
      have he : s.end_ = (((cmds.length - 1) % C : Nat) : Int) := by
        rw [hi.end_eq, if_neg (by omega)]
      obtain ⟨-, b⟩ := hi.slots (cmds.length - 1) (by omega) (by omega)
      have hcast : ((cmds.length - 1 : Nat) : Int) + 1 = (cmds.length : Int) := by omega
      rw [hcast] at b
      rw [if_neg hN]
      unfold hist_last_cnum
      rw [he, rd_natCast, b]
      have hpos : (0 : Int) < (cmds.length : Int) := by exact_mod_cast hlen
      simp [hpos]
  refine ⟨s, hs, key, fun hne hlt => ?_⟩
  rw [key, if_neg hne]
  congr 1
  exact Int.emod_eq_of_lt (by omega) (by exact_mod_cast hlt)

/-- Witness of C16: capacity 3 with no command, and with four commands. -/
theorem C16_witness :
    1 ≤ 3 ∧
    (∃ s, hist_run 3 [] = some s ∧ hist_last_cnum s = .fault) ∧
    (∃ s, hist_run 3 ["a".toList, "b".toList, "c".toList, "d".toList] = some s ∧
      hist_last_cnum s = .ok 4) := by
  refine ⟨by decide, ?_, ?_⟩
  · obtain ⟨s, hs, h1, -⟩ := C16_hist_last_cnum 3 [] (by decide)
    exact ⟨s, hs, by simpa using h1⟩
  · obtain ⟨s, hs, -, h2⟩ :=
      C16_hist_last_cnum 3 ["a".toList, "b".toList, "c".toList, "d".toList] (by decide)
    exact ⟨s, hs, h2 (by simp) (by simp)⟩

/-- Inside a full store whose newest entry sits in the last cell, with no
string in the cells `1, ..., C - 1` that starts with the prefix, the loop of
`hist_search_prefix` runs out of every amount of fuel: the index moves through
`C - 1, ..., 1`, is set back to `C - 1` when it reaches `0`, and never
becomes `end + 1 = C`. -/
theorem hist_search_prefix_loop_cycles (s : History) (pfx : CStr) (C : Nat) (hC : 2 ≤ C)
    (hsize : s.size = (C : Int)) (hend : s.end_ = (C : Int) - 1)
    (hcells : ∀ j : Nat, 1 ≤ j → j < C →
      ∃ str, s.strings[j]? = some (some str) ∧ strncmp str pfx pfx.length ≠ 0) :
    ∀ (fuel i : Nat), i < C → hist_search_prefix_loop s pfx fuel (i : Int) = .timeout := by
  intro fuel
  induction fuel with
  | zero => intro i _; rfl
  | succ f ih =>
    intro i hi
    unfold hist_search_prefix_loop
    rw [if_pos (by rw [hend]; omega)]
    by_cases h0 : i = 0
    · subst h0
      obtain ⟨str, hstr, hno⟩ := hcells (C - 1) (by omega) (by omega)
      have e : s.size - 1 = ((C - 1 : Nat) : Int) := by rw [hsize]; omega
      simp only [Nat.cast_zero, if_true, e, rd_natCast, hstr, Option.join, Option.bind, id,
        if_neg hno]
      have e2 : ((C - 1 : Nat) : Int) - 1 = ((C - 2 : Nat) : Int) := by omega
      rw [e2]
      exact ih (C - 2) (by omega)
    · obtain ⟨str, hstr, hno⟩ := hcells i (by omega) hi
      have hi0 : ¬ ((i : Int) = 0) := by omega
      simp only [if_neg hi0, rd_natCast, hstr, Option.join, Option.bind, id, if_neg hno]
      have e2 : (i : Int) - 1 = ((i - 1 : Nat) : Int) := by omega
      rw [e2]
      exact ih (i - 1) (by omega)

/-- C18: there are reachable stores on which `hist_search_prefix` does not
terminate. For every capacity `C ≥ 2`, after a number of commands that is a
positive multiple of `C` the newest entry sits in the last cell
(`end = C - 1`), and for a prefix that none of the `C` retained commands
starts with the loop runs out of every amount of fuel. -/
theorem C18_hist_search_prefix_never_returns (C : Nat) (cmds : List CStr) (pfx : CStr)
    (hC : 2 ≤ C) (hne : cmds ≠ []) (hlast : cmds.length % C = 0)
    (hno : ∀ t ∈ cmds.drop (cmds.length - C), strncmp t pfx pfx.length ≠ 0) :
    ∃ s, hist_run C cmds = some s ∧ s.end_ = (C : Int) - 1 ∧
      ∀ fuel, hist_search_prefix fuel s pfx = .timeout := by
  obtain ⟨s, hs, hi⟩ := hist_run_inv (by omega : 0 < C) cmds
  have hlen : 0 < cmds.length := List.length_pos.2 hne
  have hCn : C ≤ cmds.length := Nat.le_of_dvd hlen (Nat.dvd_of_mod_eq_zero hlast)
  have hend : s.end_ = (C : Int) - 1 := by
    rw [hi.end_eq, if_neg (by omega)]
    rcases succ_mod_cases (cmds.length - 1) C (by omega) with ⟨h1, -⟩ | ⟨-, h2⟩
    · rw [Nat.sub_add_cancel hlen, hlast] at h1
      omega
    · omega
  have hfront : ¬ (s.front = -1) := by
    rw [hi.front_eq, if_neg (by omega)]
    split <;> omega
  refine ⟨s, hs, hend, fun fuel => ?_⟩
  have hcells : ∀ j : Nat, 1 ≤ j → j < C →
      ∃ str, s.strings[j]? = some (some str) ∧ strncmp str pfx pfx.length ≠ 0 := by
    intro j _ hj
    have hk : cmds.length - C + j < cmds.length := by omega
    obtain ⟨a, -⟩ := hi.slots (cmds.length - C + j) hk (by omega)
    have hmod : (cmds.length - C + j) % C = j := by
      have hd : C ∣ cmds.length - C :=
        (Nat.dvd_sub' (Nat.dvd_of_mod_eq_zero hlast) (dvd_refl C))
      obtain ⟨q, hq⟩ := hd
      rw [hq, Nat.mul_add_mod, Nat.mod_eq_of_lt hj]
    rw [hmod, List.getElem?_eq_getElem hk] at a
    refine ⟨_, a, hno _ ?_⟩
    rw [List.mem_iff_getElem]
    refine ⟨j, by rw [List.length_drop]; omega, ?_⟩
    simp
  have hloop := hist_search_prefix_loop_cycles s pfx C hC hi.size_eq hend hcells fuel (C - 1)
    (by omega)
  have e : ((C - 1 : Nat) : Int) = (C : Int) - 1 := by omega
  rw [e] at hloop
  simp only [ hist_search_prefix, strings_list_empty, beq_iff_eq, hfront, Bool.false_eq_true,
    if_false, hend]
  exact hloop

/-- Witness of C18: capacity 2, the commands "a" and "b", the prefix "c". -/
theorem C18_witness :
    ∃ s, hist_run 2 ["a".toList, "b".toList] = some s ∧ s.end_ = ((2 : Nat) : Int) - 1 ∧
      ∀ fuel, hist_search_prefix fuel s "c".toList = .timeout :=
  C18_hist_search_prefix_never_returns 2 ["a".toList, "b".toList] "c".toList (by decide)
    (by decide) (by decide) (by decide)

/-! ### The history handlers -/

/-- The search by number as a cell is the search of `hist_search_cnum`: it
returns the cell of the string that one returns. -/
theorem hist_search_cnum_cell_agrees (s : History) (k : Int) (fuel : Nat) :
    hist_search_cnum fuel s k = (hist_search_cnum_cell fuel s k).bind (string_of_cell s) := by
  have hloop : ∀ (f : Nat) (i : Int), hist_search_cnum_loop s k f i =
      (hist_search_cnum_cell_loop s k f i).bind (string_of_cell s) := by
    intro f
    induction f with
    | zero => intro i; rfl
    | succ f ih =>
      intro i
      unfold hist_search_cnum_loop hist_search_cnum_cell_loop
      cases hn : rd s.integers i with
      | none => rfl
      | some n =>
        simp only
        by_cases hi : i ≠ s.end_
        · rw [if_pos hi, if_pos hi]
          by_cases hk : n = k
          · rw [if_pos hk, if_pos hk]
            cases hs : rd s.strings i with
            | none => rfl
            | some str => simp [Res.bind, string_of_cell, hs]
          · rw [if_neg hk, if_neg hk]
            by_cases h0 : s.size = 0
            · rw [if_pos h0, if_pos h0]; rfl
            · rw [if_neg h0, if_neg h0]; exact ih _
        · rw [if_neg hi, if_neg hi]
          by_cases hk : n = k
          · rw [if_pos hk, if_pos hk]
            cases hs : rd s.strings i with
            | none => rfl
            | some str => simp [Res.bind, string_of_cell, hs]
          · rw [if_neg hk, if_neg hk]; rfl
  unfold hist_search_cnum hist_search_cnum_cell
  split
  · rfl
  · exact hloop _ _

/-- The search by prefix as a cell is the search of `hist_search_prefix`. -/
theorem hist_search_prefix_cell_agrees (s : History) (pfx : CStr) (fuel : Nat) :
    hist_search_prefix fuel s pfx =
      (hist_search_prefix_cell fuel s pfx).bind (string_of_cell s) := by
  have hloop : ∀ (f : Nat) (i : Int), hist_search_prefix_loop s pfx f i =
      (hist_search_prefix_cell_loop s pfx f i).bind (string_of_cell s) := by
    intro f
    induction f with
    | zero => intro i; rfl
    | succ f ih =>
      intro i
      unfold hist_search_prefix_loop hist_search_prefix_cell_loop
      by_cases hi : i ≠ s.end_ + 1
      · rw [if_pos hi, if_pos hi]
        simp only
        cases hs : rd s.strings (if i = 0 then s.size - 1 else i) with
        | none => rfl
        | some str =>
          simp only
          by_cases hm : strncmp str pfx pfx.length = 0
          · rw [if_pos hm, if_pos hm]
            simp [Res.bind, string_of_cell, hs]
          · rw [if_neg hm, if_neg hm]; exact ih _
      · rw [if_neg hi, if_neg hi]; rfl
  unfold hist_search_prefix hist_search_prefix_cell
  split
  · rfl
  · exact hloop _ _

/-- Search by number on a store that holds the commands `cmds`. -/
theorem hist_search_cnum_inv {C : Nat} {cmds : List CStr} {s : History} (hC : 0 < C)
    (hi : HInv C cmds s) (k : Int) (fuel : Nat) (hfuel : C ≤ fuel) :
    hist_search_cnum fuel s k =
      .ok (if ((cmds.length - min cmds.length C : Nat) : Int) < k ∧ k ≤ (cmds.length : Int)
        then cmds[(k - 1).toNat]? else none) := by
  by_cases hN : cmds.length = 0
  · have hnil : cmds = [] := List.length_eq_zero.1 hN
    subst hnil
    simp [hist_search_cnum, strings_list_empty, hi.front_eq]
  · have hfront := HInv_front_base hi hN
    have hne : ¬ (s.front = -1) := by rw [hfront]; omega
    have hlen : (cmds.drop (cmds.length - min cmds.length C)).length = min cmds.length C := by
      rw [List.length_drop]; omega
    have hrest : cmds.drop (cmds.length - min cmds.length C) ≠ [] := by
      intro h0
      rw [h0] at hlen
      simp at hlen; omega
    have hloop := hist_search_cnum_loop_spec hC hi k _ (cmds.length - min cmds.length C) fuel
      rfl hrest (by omega) (by rw [hlen]; omega)
    simp only [hist_search_cnum, strings_list_empty, beq_iff_eq, hne, if_false, hfront,
      Bool.false_eq_true]
    exact hloop

theorem hist_search_cnum_cell_loop_spec {C : Nat} {cmds : List CStr} {s : History}
    (hC : 0 < C) (h : HInv C cmds s) (n : Int) :
    ∀ (rest : List CStr) (k fuel : Nat), cmds.drop k = rest → rest ≠ [] →
      cmds.length ≤ k + C → rest.length ≤ fuel →
      hist_search_cnum_cell_loop s n fuel ((k % C : Nat) : Int) =
        .ok (if (k : Int) < n ∧ n ≤ (cmds.length : Int)
          then some ((((n - 1).toNat % C : Nat) : Int)) else none) := by
  intro rest
  induction rest with
  | nil => intro k fuel _ hne; exact absurd rfl hne
  | cons x r ih =>
    intro k fuel hd _ hcap hfuel
    have hk : k < cmds.length := by
      by_contra hk
      rw [List.drop_eq_nil_of_le (by omega)] at hd
      exact List.noConfusion hd
    have hx : cmds[k]? = some x := by
      rw [← List.head?_drop, hd]; rfl
    have hr : cmds.drop (k + 1) = r := by
      rw [← List.drop_drop 1 k, hd]; rfl
    obtain ⟨a, b⟩ := h.slots k hk hcap
    rw [hx] at a
    obtain ⟨f, rfl⟩ : ∃ f, fuel = f + 1 := ⟨fuel - 1, by simp at hfuel; omega⟩
    have hlen : cmds.length = k + 1 + r.length := by
      have := congrArg List.length hr
      simp at this; omega
    have hend : s.end_ = (((cmds.length - 1) % C : Nat) : Int) := by
      rw [h.end_eq, if_neg (by omega)]
    have hfound : (k : Int) + 1 = n →
        (if (k : Int) < n ∧ n ≤ (cmds.length : Int)
          then some ((((n - 1).toNat % C : Nat) : Int)) else none)
          = some ((k % C : Nat) : Int) := by
      intro e
      subst e
      rw [if_pos ⟨by omega, by omega⟩]
      simp
    unfold hist_search_cnum_cell_loop
    simp only [rd_natCast, a, b, Option.join, Option.bind, id, hend]
    by_cases hr0 : r = []
    · subst hr0
      simp only [List.length_nil, add_zero] at hlen
      rw [if_neg (by simp [hlen])]
      by_cases e : (k : Int) + 1 = n
      · rw [if_pos e, hfound e]
      · rw [if_neg e, if_neg (by omega)]
    · have hr1 : 0 < r.length := List.length_pos.2 hr0
      have hne : k % C ≠ (cmds.length - 1) % C :=
        mod_ne_of_lt_of_lt (by omega) (by omega)
      rw [if_pos (by exact_mod_cast hne)]
      by_cases e : (k : Int) + 1 = n
      · rw [if_pos e, hfound e]
      · rw [if_neg e, if_neg (by rw [h.size_eq]; omega), h.size_eq,
          tmod_succ_natCast, ih (k + 1) f hr hr0 (by omega) (by simp at hfuel; omega)]
        congr 1
        by_cases c1 : (k : Int) < n ∧ n ≤ (cmds.length : Int)
        · rw [if_pos c1, if_pos ⟨by push_cast; omega, c1.2⟩]
        · rw [if_neg c1, if_neg (by push_cast; omega)]

/-- Search by number, as a cell, on a store that holds the commands `cmds`. -/
theorem hist_search_cnum_cell_inv {C : Nat} {cmds : List CStr} {s : History} (hC : 0 < C)
    (hi : HInv C cmds s) (k : Int) (fuel : Nat) (hfuel : C ≤ fuel) :
    hist_search_cnum_cell fuel s k =
      .ok (if ((cmds.length - min cmds.length C : Nat) : Int) < k ∧ k ≤ (cmds.length : Int)
        then some ((((k - 1).toNat % C : Nat) : Int)) else none) := by
  by_cases hN : cmds.length = 0
  · have hnil : cmds = [] := List.length_eq_zero.1 hN
    subst hnil
    have : ¬ ((0 : Int) < k ∧ k ≤ 0) := by omega
    simp [hist_search_cnum_cell, strings_list_empty, hi.front_eq, this]
  · have hfront := HInv_front_base hi hN
    have hne : ¬ (s.front = -1) := by rw [hfront]; omega
    have hlen : (cmds.drop (cmds.length - min cmds.length C)).length = min cmds.length C := by
      rw [List.length_drop]; omega
    have hrest : cmds.drop (cmds.length - min cmds.length C) ≠ [] := by
      intro h0
      rw [h0] at hlen
      simp at hlen; omega
    have hloop := hist_search_cnum_cell_loop_spec hC hi k _ (cmds.length - min cmds.length C)
      fuel rfl hrest (by omega) (by rw [hlen]; omega)
    simp only [hist_search_cnum_cell, strings_list_empty, beq_iff_eq, hne, if_false, hfront,
      Bool.false_eq_true]
    exact hloop

/-- The store after one more `hist_add`. -/
theorem hist_run_append {C : Nat} (hC : 0 < C) (cmds : List CStr) (t : CStr) :
    ∃ s s', hist_run C cmds = some s ∧ HInv C cmds s ∧ hist_add s t = some s' ∧
      hist_run C (cmds ++ [t]) = some s' ∧ HInv C (cmds ++ [t]) s' := by
  obtain ⟨s, hs, hi⟩ := hist_run_inv hC cmds
  obtain ⟨s', hs', hi'⟩ := HInv_add hC hi t
  refine ⟨s, s', hs, hi, hs', ?_, hi'⟩
  unfold hist_run at hs ⊢
  rw [List.foldlM_append, hs]
  simpa using hs'

/-- The loop of the handlers stores the runs of the string from cell `i` on,
then the null pointer, when they fit the block, and faults when they do not. -/
theorem handler_loop_spec :
    ∀ (fuel : Nat) (str : CStr) (i : Nat) (args : Args), str.length < fuel →
      i ≤ args.length →
      handler_loop fuel (some str) i args =
        if i + (runs str).length < args.length then
          .ok (args.take i ++ ((runs str).map some ++
            none :: args.drop (i + (runs str).length + 1)))
        else .fault := by
  intro fuel
  induction fuel with
  | zero => intro s i args h; exact absurd h (Nat.not_lt_zero _)
  | succ f ih =>
    intro s i args hlen hi
    have hnil : ∀ (j : Nat) (a : Args), j ≤ a.length →
        (if j < a.length then Res.ok (a.set j none) else Res.fault) =
          if j + 0 < a.length then .ok (a.take j ++ ([] ++ none :: a.drop (j + 0 + 1)))
          else .fault := by
      intro j a _
      by_cases hj : j < a.length
      · rw [if_pos hj, if_pos (by omega)]
        simp [List.set_eq_take_append_cons_drop, hj]
      · rw [if_neg hj, if_neg (by omega)]
    have hcons : ∀ (tok : CStr) (ts : List CStr), i < args.length →
        (if i + 1 + ts.length < (args.set i (some tok)).length then
          Res.ok ((args.set i (some tok)).take (i + 1) ++ (ts.map some ++
            none :: (args.set i (some tok)).drop (i + 1 + ts.length + 1)))
        else Res.fault) =
        if i + (tok :: ts).length < args.length then
          .ok (args.take i ++ ((tok :: ts).map some ++
            none :: args.drop (i + (tok :: ts).length + 1)))
        else .fault := by
      intro tok ts hia
      have e1 : i + (tok :: ts).length = i + 1 + ts.length := by simp; omega
      rw [e1, List.length_set]
      by_cases hfit : i + 1 + ts.length < args.length
      · rw [if_pos hfit, if_pos hfit]
        congr 1
        rw [List.drop_set_of_lt _ _ (by omega), List.set_eq_take_append_cons_drop, if_pos hia,
          List.take_append_eq_append_take]
        simp [List.take_take, Nat.min_eq_left, List.length_take, hia.le]
      · rw [if_neg hfit, if_neg hfit]
    unfold handler_loop
    rcases next_token_runs s with ⟨hr, hn⟩ | ⟨tok, htok, hr, hn⟩ | ⟨tok, after, htok, hr, hl, hn⟩
    · rw [hn, hr]
      exact hnil i args hi
    · rw [hn, hr]
      simp only
      by_cases hia : i < args.length
      · rw [if_pos hia]
        have hs0 : s ≠ [] := by
          intro h0; subst h0; simp [runs] at hr
        obtain ⟨f', rfl⟩ : ∃ f', f = f' + 1 := by
          have := List.length_pos.2 hs0
          exact ⟨f - 1, by omega⟩
        have hstep : handler_loop (f' + 1) none (i + 1) (args.set i (some tok)) =
            if i + 1 < (args.set i (some tok)).length
            then .ok ((args.set i (some tok)).set (i + 1) none) else .fault := rfl
        rw [hstep, hnil (i + 1) _ (by rw [List.length_set]; omega)]
        have := hcons tok [] hia
        simpa using this
      · rw [if_neg hia, if_neg (by simp; omega)]
    · rw [hn, hr]
      simp only
      by_cases hia : i < args.length
      · rw [if_pos hia, ih after (i + 1) _ (by omega) (by rw [List.length_set]; omega)]
        exact hcons tok (runs after) hia
      · rw [if_neg hia, if_neg (by simp; omega)]

/-- C13: in a store of capacity `C ≥ 1` that holds the commands `cmds`, the
last of them with text `t` (fewer than `2^31` commands), `double_bang_handler`
on the block `args` adds one entry with text `t` (the store is the one `cmds`
followed by `t` produces, so the entry has number `N + 1` and the others are
as `hist_add` leaves them) and rewrites argv to the whitespace tokens of `t`
followed by the null pointer, provided the tokens and the null pointer fit
the block; when they do not fit, it stores outside the block. -/
theorem C13_double_bang_handler (C : Nat) (cmds : List CStr) (t : CStr) (args : Args)
    (fuel : Nat) (hC : 1 ≤ C) (hlast : cmds.getLast? = some t) (hN : cmds.length < 2 ^ 31)
    (hf1 : C ≤ fuel) (hf2 : t.length < fuel) :
    ∃ s s', hist_run C cmds = some s ∧ hist_run C (cmds ++ [t]) = some s' ∧
      double_bang_handler fuel s args =
        if (runs t).length < args.length then
          .ok (s', (runs t).map some ++ none :: args.drop ((runs t).length + 1))
        else .fault := by
  obtain ⟨s, s', hs, hi, hadd, hs', -⟩ := hist_run_append (by omega : 0 < C) cmds t
  refine ⟨s, s', hs, hs', ?_⟩
  have hne : cmds ≠ [] := by
    intro h0; subst h0; simp at hlast
  have hlen : 0 < cmds.length := List.length_pos.2 hne
  have hN' : cmds.length < 2147483648 := by norm_num at hN; exact hN
  have hlastc : hist_last_cnum s = .ok (cmds.length : Int) := by
    have he : s.end_ = (((cmds.length - 1) % C : Nat) : Int) := by
      rw [hi.end_eq, if_neg (by omega)]
    obtain ⟨-, b⟩ := hi.slots (cmds.length - 1) (by omega) (by omega)
    have hcast : ((cmds.length - 1 : Nat) : Int) + 1 = (cmds.length : Int) := by omega
    rw [hcast] at b
    unfold hist_last_cnum
    rw [he, rd_natCast, b]
    have hpos : (0 : Int) < (cmds.length : Int) := by exact_mod_cast hlen
    simp [hpos]
    omega
  have hconv : int_of_unsigned (cmds.length : Int) = (cmds.length : Int) := by
    unfold int_of_unsigned
    rw [if_pos (by norm_num; omega)]
  have hfind : hist_search_cnum fuel s (cmds.length : Int) = .ok (some t) := by
    rw [hist_search_cnum_inv (by omega : 0 < C) hi _ fuel hf1, if_pos ⟨by omega, le_refl _⟩]
    have e : ((cmds.length : Int) - 1).toNat = cmds.length - 1 := by omega
    rw [List.getLast?_eq_getElem?] at hlast
    rw [e, hlast]
  simp only [double_bang_handler, hlastc, Res.bind, double_bang_handler_from, hconv, hfind,
    hadd]
  rw [handler_loop_spec fuel t 0 args hf2 (Nat.zero_le _)]
  simp only [Nat.zero_add, List.take_zero, List.nil_append]
  by_cases hfit : (runs t).length < args.length
  · simp only [if_pos hfit]
  · simp only [if_neg hfit]

/-- Witness of C13: capacity 2 after "a", "b" and "ls -l", a block of four cells. -/
theorem C13_witness :
    ∃ s s', hist_run 2 ["a".toList, "b".toList, "ls -l".toList] = some s ∧
      hist_run 2 (["a".toList, "b".toList, "ls -l".toList] ++ ["ls -l".toList]) = some s' ∧
      double_bang_handler 10 s [some "!!".toList, none, none, none] =
        if (runs "ls -l".toList).length < [some "!!".toList, none, none, none].length then
          .ok (s', (runs "ls -l".toList).map some ++
            none :: [some "!!".toList, none, none, none].drop ((runs "ls -l".toList).length + 1))
        else .fault :=
  C13_double_bang_handler 2 ["a".toList, "b".toList, "ls -l".toList] "ls -l".toList
    [some "!!".toList, none, none, none] 10 (by decide) (by decide) (by decide) (by decide)
    (by decide)

set_option maxRecDepth 1000000 in
/-- C14: on the empty history `double_bang_handler` does not complete. The
call of `hist_last_cnum` reads `integers[-1]`, outside the array; and whatever
number that read yields, `hist_search_cnum` returns `NULL` on the empty list
and the handler hands it to `strdup`. The first input line `!!` of a session
takes this way. -/
theorem C14_double_bang_on_empty_history (C : Nat) (fuel : Nat) (args : Args) :
    hist_last_cnum (hist_init C) = .fault ∧
    double_bang_handler fuel (hist_init C) args = .fault ∧
    (∀ last, hist_search_cnum fuel (hist_init C) (int_of_unsigned last) = .ok none ∧
      double_bang_handler_from fuel (hist_init C) args last = .fault) ∧
    main_round Sys.all_ok 10 (hist_init 100) "!!".toList = .fault := by
  have h1 : hist_last_cnum (hist_init C) = .fault := by
    simp [hist_last_cnum, hist_init, rd]
  have h2 : ∀ k, hist_search_cnum fuel (hist_init C) k = .ok none := by
    intro k
    simp [hist_search_cnum, strings_list_empty, hist_init]
  refine ⟨h1, ?_, fun last => ⟨h2 _, ?_⟩, by decide⟩
  · simp [double_bang_handler, h1, Res.bind]
  · simp [double_bang_handler_from, h2, Res.bind]

/-- Overwriting the string of one retained command keeps the invariant, for
the list of commands with that text replaced. -/
theorem HInv_set_string {C : Nat} {cmds : List CStr} {s : History} (hC : 0 < C)
    (h : HInv C cmds s) (k : Nat) (t' : CStr) (hk : k < cmds.length)
    (hkeep : cmds.length ≤ k + C) :
    HInv C (cmds.set k t') { s with strings := s.strings.set (k % C) (some t') } := by
  obtain ⟨h1, h2, h3, h4, h5, h6, h7⟩ := h
  refine ⟨h1, by simp [h2], h3, by simpa using h4, by simpa using h5, by simpa using h6, ?_⟩
  intro j hj1 hj2
  simp only [List.length_set] at hj1 hj2
  obtain ⟨a, b⟩ := h7 j hj1 hj2
  refine ⟨?_, b⟩
  by_cases hjk : j = k
  · subst hjk
    simp [h2, Nat.mod_lt _ hC, hj1]
  · have hne : k % C ≠ j % C := by
      rcases Nat.lt_or_gt_of_ne hjk with hlt | hgt
      · exact (mod_ne_of_lt_of_lt hlt (by omega)).symm
      · exact mod_ne_of_lt_of_lt hgt (by omega)
    simp only [List.getElem?_set_ne hne, a, List.getElem?_set_ne (Ne.symm hjk)]

/-- The cell `hist_add` frees is not the cell of a command that is retained
after the addition. -/
theorem hist_add_frees_ne {C : Nat} {cmds : List CStr} {s : History}
    (h : HInv C cmds s) (k : Nat) (hk : k < cmds.length) (hkeep : cmds.length + 1 ≤ k + C) :
    hist_add_frees s ≠ some ((k % C : Nat) : Int) := by
  unfold hist_add_frees
  split
  · rename_i hcond
    obtain ⟨hfull, -, -⟩ := hcond
    intro e
    have hfr : s.front = ((k % C : Nat) : Int) := Option.some.inj e
    have hend : s.end_ = (((cmds.length - 1) % C : Nat) : Int) := by
      rw [h.end_eq, if_neg (by omega)]
    by_cases hle : cmds.length ≤ C
    · have hf0 : s.front = 0 := by
        rw [h.front_eq, if_neg (by omega), if_pos hle]
      have hmod : (cmds.length - 1) % C = cmds.length - 1 := Nat.mod_eq_of_lt (by omega)
      have hkmod : k % C = k := Nat.mod_eq_of_lt (by omega)
      rw [hmod] at hend
      rw [hkmod] at hfr
      simp only [strings_list_full, hf0, hend, h.size_eq, Bool.or_eq_true, beq_iff_eq,
        Bool.and_eq_true] at hfull
      omega
    · have hf : s.front = ((cmds.length % C : Nat) : Int) := by
        rw [h.front_eq, if_neg (by omega), if_neg hle]
      rw [hf] at hfr
      have := mod_ne_of_lt_of_lt hk (by omega : cmds.length < k + C)
      exact this (by exact_mod_cast hfr.symm)
  · simp

/-- C17 (what the code does): in a store of capacity `C ≥ 1` that holds the
commands `cmds`, let entry number `k + 1` have the text `t` and be retained
after one more addition. The expansion `!` followed by digits whose number is
`k + 1` finds that entry, adds a copy of `t` as the newest entry, and cuts `t`
itself into tokens in place: afterwards `hist_search_cnum (k + 1)` returns
what `next_token` left of the string, the text up to the end of its first
token, not `t`. The tokens of `t` are the new argv. -/
theorem C17_bang_number_cuts_entry (C : Nat) (cmds : List CStr) (k : Nat) (t ds : CStr)
    (args : Args) (fuel : Nat) (hC : 1 ≤ C) (hk : cmds[k]? = some t)
    (hkeep : cmds.length + 1 ≤ k + C) (hdigit : ds.head?.any Char.isDigit = true)
    (hatoi : atoi ds = some ((k : Int) + 1)) (hfit : (runs t).length < args.length)
    (hf1 : C ≤ fuel) (hf2 : t.length < fuel) :
    ∃ s s2, hist_run C cmds = some s ∧
      hist_search_cnum fuel s ((k : Int) + 1) = .ok (some t) ∧
      bang_handler fuel s args ('!' :: ds) =
        .ok (s2, (runs t).map some ++ none :: args.drop ((runs t).length + 1)) ∧
      hist_search_cnum fuel s2 ((k : Int) + 1) = .ok (some (next_token_in_place t delims)) ∧
      hist_search_cnum fuel s2 ((cmds.length : Int) + 1) = .ok (some t) := by
  have hC0 : 0 < C := by omega
  obtain ⟨s, s1, hs, hi, hadd, -, hi1⟩ := hist_run_append hC0 cmds t
  have hkn : k < cmds.length := by
    by_contra hcon
    rw [List.getElem?_eq_none (by omega)] at hk
    exact Option.noConfusion hk
  have hlive : ((cmds.length - min cmds.length C : Nat) : Int) < (k : Int) + 1 ∧
      (k : Int) + 1 ≤ (cmds.length : Int) := by omega
  have htoNat : ((k : Int) + 1 - 1).toNat = k := by omega
  have hbefore : hist_search_cnum fuel s ((k : Int) + 1) = .ok (some t) := by
    rw [hist_search_cnum_inv hC0 hi _ fuel hf1, if_pos hlive, htoNat, hk]
  have hcell : hist_search_cnum_cell fuel s ((k : Int) + 1) = .ok (some ((k % C : Nat) : Int)) := by
    rw [hist_search_cnum_cell_inv hC0 hi _ fuel hf1, if_pos hlive, htoNat]
  have hstr : rd s.strings ((k % C : Nat) : Int) = some t := by
    obtain ⟨a, -⟩ := hi.slots k hkn (by omega)
    rw [rd_natCast, a, hk]
    rfl
  have hend1 : s1.end_ ≠ ((k % C : Nat) : Int) := by
    rw [hi1.end_eq, if_neg (by simp)]
    simp only [List.length_append, List.length_singleton, Nat.add_sub_cancel]
    have := mod_ne_of_lt_of_lt hkn (by omega : cmds.length < k + C)
    exact_mod_cast this.symm
  have hwr : wr s1.strings ((k % C : Nat) : Int) (some (next_token_in_place t delims)) =
      some (s1.strings.set (k % C) (some (next_token_in_place t delims))) :=
    wr_natCast _ _ _ (by rw [hi1.slen]; exact Nat.mod_lt _ hC0)
  have hloop := handler_loop_spec fuel t 0 args hf2 (Nat.zero_le _)
  simp only [Nat.zero_add, List.take_zero, List.nil_append, if_pos hfit] at hloop
  have hexp : bang_expand fuel s ((k % C : Nat) : Int) args =
      .ok ({ s1 with strings := s1.strings.set (k % C) (some (next_token_in_place t delims)) },
        (runs t).map some ++ none :: args.drop ((runs t).length + 1)) := by
    simp only [bang_expand, hstr, hadd, if_neg (hist_add_frees_ne hi k hkn hkeep), hloop,
      Res.bind, if_neg hend1, hwr]
  have hi2 := HInv_set_string hC0 hi1 k (next_token_in_place t delims)
    (by simp; omega) (by simp; omega)
  have hset : (cmds ++ [t]).set k (next_token_in_place t delims) =
      cmds.set k (next_token_in_place t delims) ++ [t] := by
    rw [List.set_append_left _ _ hkn]
  rw [hset] at hi2
  refine ⟨s, { s1 with strings := s1.strings.set (k % C) (some (next_token_in_place t delims)) },
    hs, hbefore, ?_, ?_, ?_⟩
  · simp only [bang_handler, hdigit, if_true, hatoi, hcell, Res.bind, hexp]
  · rw [hist_search_cnum_inv hC0 hi2 _ fuel hf1]
    simp only [List.length_append, List.length_set, List.length_singleton]
    rw [if_pos (by omega), htoNat, List.getElem?_append_left (by simpa using hkn)]
    simp [hkn]
  · rw [hist_search_cnum_inv hC0 hi2 _ fuel hf1]
    simp only [List.length_append, List.length_set, List.length_singleton]
    rw [if_pos (by push_cast; omega)]
    have e : ((cmds.length : Int) + 1 - 1).toNat = (cmds.set k (next_token_in_place t delims)).length := by
      simp
    rw [e, List.getElem?_concat_length]

/-- Witness of C17: capacity 100 after "ls -l"; the expansion `!1` leaves "ls"
as the text of entry 1. -/
theorem C17_witness :
    ∃ s s2, hist_run 100 ["ls -l".toList] = some s ∧
      hist_search_cnum 101 s ((0 : Nat) + 1) = .ok (some "ls -l".toList) ∧
      bang_handler 101 s [some "!1".toList, none, none, none] ('!' :: "1".toList) =
        .ok (s2, (runs "ls -l".toList).map some ++
          none :: [some "!1".toList, none, none, none].drop ((runs "ls -l".toList).length + 1)) ∧
      hist_search_cnum 101 s2 ((0 : Nat) + 1) = .ok (some "ls".toList) ∧
      hist_search_cnum 101 s2 ((["ls -l".toList].length : Int) + 1) = .ok (some "ls -l".toList) :=
  C17_bang_number_cuts_entry 100 ["ls -l".toList] 0 "ls -l".toList "1".toList
    [some "!1".toList, none, none, none] 101 (by decide) (by decide) (by decide) (by decide)
    (by decide) (by decide) (by decide) (by decide)

set_option maxRecDepth 1000000 in
/-- The expansion by prefix cuts the entry it finds in the same way: with
"pwd" and "ls -l" in the history of the main loop, after the line `!ls` the
command `history` lists entry 2 as "ls". -/
theorem bang_prefix_cuts_entry_example :
    (hist_run 100 ["pwd".toList, "ls -l".toList]).map
        (fun s => (main_round Sys.all_ok 10 s "!ls".toList).bind fun r => hist_print 10 r.1)
      = some (.ok [(1, "pwd".toList), (2, "ls".toList), (3, "ls -l".toList)]) := by
  decide

set_option maxRecDepth 1000000 in
/-- The block `args` of the line `!!` has 800 cells: a newest entry of 800
tokens or more does not fit it. -/
theorem args_block_double_bang :
    (main_tokenize true 10 "!!".toList).bind (fun st => .ok (args_block st).length) = .ok 800 := by
  decide

/-! ### The table of background jobs -/

/-- The loop of `sigchld_handler` over the cells `0, ..., m - 1`. -/
theorem sigchld_handler_fold (pid : Int) (jobs : List job_info) :
    ∀ m, m ≤ jobs.length →
      (List.range m).foldl (sigchld_handler_step pid) (.ok jobs) =
        .ok ((jobs.take m).map (fun j => if j.pid = pid then { j with command := none } else j)
          ++ jobs.drop m) := by
  intro m
  induction m with
  | zero => intro _; simp
  | succ k ih =>
    intro hk
    have hlt : k < jobs.length := by omega
    rw [List.range_succ, List.foldl_append, ih (by omega)]
    simp only [List.foldl_cons, List.foldl_nil, sigchld_handler_step, Res.bind]
    have hlen : ((jobs.take k).map
        (fun j => if j.pid = pid then { j with command := none } else j)).length = k := by
      simp [List.length_take]; omega
    have hdrop : jobs.drop k = jobs[k] :: jobs.drop (k + 1) := List.drop_eq_getElem_cons hlt
    have htake : jobs.take (k + 1) = jobs.take k ++ [jobs[k]] := by
      rw [List.take_succ, List.getElem?_eq_getElem hlt]
      rfl
    have hget := getElem?_mid ((jobs.take k).map
      (fun j => if j.pid = pid then { j with command := none } else j)) jobs[k]
      (jobs.drop (k + 1))
    have hset := set_mid ((jobs.take k).map
      (fun j => if j.pid = pid then { j with command := none } else j)) jobs[k]
      { jobs[k] with command := none } (jobs.drop (k + 1))
    rw [hlen] at hget hset
    rw [hdrop, hget]
    simp only
    congr 1
    by_cases hp : jobs[k].pid = pid
    · rw [if_pos hp, hset, htake, List.map_append]
      simp [hp]
    · rw [if_neg hp, htake, List.map_append]
      simp [hp]

/-- The loop of the command `jobs` from cell `i` down to cell 0. -/
theorem main_jobs_loop_eq (t : JobTable) :
    ∀ i, i < t.jobs.length →
      main_jobs_loop t i = .ok ((t.jobs.take (i + 1)).reverse.flatMap fun j => j.command.toList) := by
  intro i
  induction i with
  | zero =>
    intro h
    unfold main_jobs_loop
    obtain ⟨j, l, hj⟩ : ∃ j l, t.jobs = j :: l := by
      cases hjobs : t.jobs with
      | nil => rw [hjobs] at h; exact absurd h (by simp)
      | cons j l => exact ⟨j, l, rfl⟩
    rw [hj]
    simp
  | succ k ih =>
    intro h
    unfold main_jobs_loop
    rw [List.getElem?_eq_getElem h, ih (by omega)]
    simp only [Res.bind]
    congr 1
    have ht : t.jobs.take (k + 1 + 1) = t.jobs.take (k + 1) ++ [t.jobs[k + 1]] := by
      rw [List.take_succ, List.getElem?_eq_getElem h]
      rfl
    rw [ht, List.reverse_append]
    simp

theorem job_cell_reap (pid : Int) (j : CStr × Int × Bool) :
    (if (job_cell j).pid = pid then { job_cell j with command := none } else job_cell j) =
      job_cell (j.1, j.2.1, j.2.2 || j.2.1 == pid) := by
  obtain ⟨c, p, f⟩ := j
  by_cases hp : p = pid
  · simp [job_cell, hp]
  · simp [job_cell, hp]

/-- Registering into a table that holds fewer than ten registrations. -/
theorem main_register_job_table (acc : List (CStr × Int × Bool)) (jobs_cmd : CStr) (child : Int)
    (h : acc.length < 10) :
    main_register (job_table acc) jobs_cmd child =
      .ok (job_table ((jobs_cmd, child, false) :: acc)) := by
  have hlen : (acc.reverse.map job_cell).length = acc.length := by simp
  have hrep : List.replicate (10 - acc.length) ({ command := none, pid := 0 } : job_info) =
      { command := none, pid := 0 } ::
        List.replicate (10 - (acc.length + 1)) { command := none, pid := 0 } := by
    have : 10 - acc.length = (10 - (acc.length + 1)) + 1 := by omega
    rw [this, List.replicate_succ]
  unfold main_register job_table
  simp only [if_neg (by omega : ¬ acc.length = 10)]
  rw [if_pos (by simp; omega)]
  congr 2
  rw [hrep]
  have hset := set_mid (acc.reverse.map job_cell) ({ command := none, pid := 0 } : job_info)
    { command := some jobs_cmd, pid := child }
    (List.replicate (10 - (acc.length + 1)) { command := none, pid := 0 })
  rw [hlen] at hset
  rw [hset]
  simp [job_cell]

/-- A notification in a table that holds fewer than ten registrations. -/
theorem sigchld_handler_job_table (acc : List (CStr × Int × Bool)) (pid : Int)
    (h : acc.length < 10) :
    sigchld_handler (job_table acc) pid =
      .ok (job_table (acc.map fun j => (j.1, j.2.1, j.2.2 || j.2.1 == pid))) := by
  have hlen : (acc.reverse.map job_cell).length = acc.length := by simp
  have hrep : List.replicate (10 - acc.length) ({ command := none, pid := 0 } : job_info) =
      { command := none, pid := 0 } ::
        List.replicate (10 - (acc.length + 1)) { command := none, pid := 0 } := by
    have : 10 - acc.length = (10 - (acc.length + 1)) + 1 := by omega
    rw [this, List.replicate_succ]
  unfold sigchld_handler
  have hjobs : (job_table acc).jobs = acc.reverse.map job_cell ++
      List.replicate (10 - acc.length) { command := none, pid := 0 } := rfl
  have hnum : (job_table acc).job_num = acc.length := rfl
  rw [hnum, sigchld_handler_fold pid _ (acc.length + 1) (by rw [hjobs]; simp; omega)]
  simp only [Res.bind]
  congr 1
  unfold job_table
  simp only [List.length_map]
  congr 1
  rw [hrep]
  have htake : (acc.reverse.map job_cell ++ ({ command := none, pid := 0 } : job_info) ::
      List.replicate (10 - (acc.length + 1)) { command := none, pid := 0 }).take (acc.length + 1)
      = acc.reverse.map job_cell ++ [{ command := none, pid := 0 }] := by
    rw [List.take_append_eq_append_take, hlen]
    simp [List.take_of_length_le, hlen]
  have hdrop : (acc.reverse.map job_cell ++ ({ command := none, pid := 0 } : job_info) ::
      List.replicate (10 - (acc.length + 1)) { command := none, pid := 0 }).drop (acc.length + 1)
      = List.replicate (10 - (acc.length + 1)) { command := none, pid := 0 } := by
    rw [List.drop_append_eq_append_drop, hlen]
    simp [List.drop_of_length_le, hlen]
  rw [htake, hdrop, List.map_append, List.map_map, ← List.map_reverse, List.map_map]
  have hf : ((fun j => if j.pid = pid then { j with command := none } else j) ∘ job_cell) =
      (job_cell ∘ fun j => (j.1, j.2.1, j.2.2 || j.2.1 == pid)) := by
    funext j
    exact job_cell_reap pid j
  rw [hf]
  simp

theorem spec_registered_length (ops : List JobOp) :
    ∀ acc, (spec_registered acc ops).length = acc.length + registrations ops := by
  induction ops with
  | nil => intro acc; simp [spec_registered, registrations]
  | cons op ops ih =>
    intro acc
    cases op with
    | register c p => simp [spec_registered, registrations, ih]; omega
    | reap pid => simp [spec_registered, registrations, ih]

/-- The table after a sequence of operations that leaves fewer than ten registrations. -/
theorem job_run_job_table (ops : List JobOp) :
    ∀ acc, acc.length + registrations ops < 10 →
      ops.foldl job_step (.ok (job_table acc)) = .ok (job_table (spec_registered acc ops)) := by
  induction ops with
  | nil => intro acc _; rfl
  | cons op ops ih =>
    intro acc h
    cases op with
    | register c p =>
      simp only [registrations] at h
      simp only [List.foldl_cons, job_step, Res.bind, spec_registered]
      rw [main_register_job_table acc c p (by omega)]
      exact ih _ (by simp; omega)
    | reap pid =>
      simp only [registrations] at h
      simp only [List.foldl_cons, job_step, Res.bind, spec_registered]
      rw [sigchld_handler_job_table acc pid (by omega)]
      exact ih _ (by simpa using h)

theorem job_cell_lines (acc : List (CStr × Int × Bool)) :
    ((acc.map job_cell).flatMap fun j => j.command.toList) =
      (acc.filter fun j => !j.2.2).map fun j => j.1 := by
  induction acc with
  | nil => rfl
  | cons j l ih =>
    obtain ⟨c, p, f⟩ := j
    cases f
    · simp only [List.map_cons, List.flatMap_cons, ih]
      simp [job_cell]
    · simp only [List.map_cons, List.flatMap_cons, ih]
      simp [job_cell]

/-- Before the tenth registration the listing is right: after every sequence
of registrations and notifications with fewer than ten registrations, the
command `jobs` prints the texts of the registered jobs whose process id has
not been notified, most recently registered first. -/
theorem jobs_listing_before_wrap (ops : List JobOp) (h : registrations ops < 10) :
    (job_run ops).bind main_jobs = .ok (spec_jobs ops) := by
  have hrun : job_run ops = .ok (job_table (spec_registered [] ops)) :=
    job_run_job_table ops [] (by simpa using h)
  have hlen : (spec_registered [] ops).length < 10 := by
    rw [spec_registered_length]; simpa using h
  unfold spec_jobs
  rw [hrun]
  generalize spec_registered [] ops = acc at hlen
  have hl : (acc.reverse.map job_cell).length = acc.length := by simp
  have hrep : List.replicate (10 - acc.length) ({ command := none, pid := 0 } : job_info) =
      { command := none, pid := 0 } ::
        List.replicate (10 - (acc.length + 1)) { command := none, pid := 0 } := by
    have : 10 - acc.length = (10 - (acc.length + 1)) + 1 := by omega
    rw [this, List.replicate_succ]
  have hjobs : (job_table acc).jobs = acc.reverse.map job_cell ++
      ({ command := none, pid := 0 } : job_info) ::
        List.replicate (10 - (acc.length + 1)) { command := none, pid := 0 } := by
    unfold job_table
    rw [hrep]
  have htake : (job_table acc).jobs.take (acc.length + 1) =
      acc.reverse.map job_cell ++ [{ command := none, pid := 0 }] := by
    rw [hjobs, List.take_append_eq_append_take, hl]
    simp [List.take_of_length_le, hl]
  simp only [Res.bind, main_jobs]
  have hnum : (job_table acc).job_num = acc.length := rfl
  rw [hnum, main_jobs_loop_eq _ _ (by rw [hjobs]; simp), htake, List.reverse_append,
    List.take_of_length_le (by omega), ← job_cell_lines]
  simp

set_option maxRecDepth 1000000 in
/-- C12 (evaluation of the code): the jobs "a", ..., "k" are registered in
this order with the process ids 1, ..., 11 and none is reaped. After the first
ten registrations `job_num` is 10, and both the command `jobs` and
`sigchld_handler` read `jobs[10]`, outside the array of ten cells. After the
eleventh registration `job_num` is 1 and `jobs` prints "b" and "k", in this
order, where the ten most recent registrations, most recent first, are "k",
"j", ..., "b"; and the notification for process 5 (job "e", in cell 4) only
scans the cells 0 and 1, so it clears nothing. -/
theorem C12_jobs_listing_after_ten_registrations :
    (job_run (("abcdefghij".toList.enum).map fun x => .register [x.2] (x.1 + 1))).bind
        (fun t => .ok t.job_num) = .ok 10 ∧
    (job_run (("abcdefghij".toList.enum).map fun x => .register [x.2] (x.1 + 1))).bind main_jobs
      = .fault ∧
    (job_run (("abcdefghij".toList.enum).map fun x => .register [x.2] (x.1 + 1))).bind
        (fun t => sigchld_handler t 5) = .fault ∧
    (job_run (("abcdefghijk".toList.enum).map fun x => .register [x.2] (x.1 + 1))).bind main_jobs
      = .ok ["b".toList, "k".toList] ∧
    spec_jobs (("abcdefghijk".toList.enum).map fun x => .register [x.2] (x.1 + 1))
      = ["k".toList, "j".toList, "i".toList, "h".toList, "g".toList, "f".toList, "e".toList,
          "d".toList, "c".toList, "b".toList] ∧
    (job_run (("abcdefghijk".toList.enum).map fun x => .register [x.2] (x.1 + 1))).bind
        (fun t => .ok (decide (sigchld_handler t 5 = .ok t))) = .ok true := by
  refine ⟨by decide, by decide, by decide, by decide, by decide, by decide⟩

/-! ### The forked child after a failed `execvp` -/

theorem failures_return_append (sys : Sys) (a b : List Event)
    (ha : failures_return sys a = true) (hb : failures_return sys b = true) :
    failures_return sys (a ++ b) = true := by
  induction a with
  | nil => simpa using hb
  | cons e rest ih =>
    cases e with
    | exec num argv io child =>
      simp only [failures_return, Bool.and_eq_true, Bool.or_eq_true] at ha
      simp only [List.cons_append, failures_return, Bool.and_eq_true, Bool.or_eq_true]
      refine ⟨?_, ih ha.2⟩
      rcases ha.1 with h | h
      · exact Or.inl h
      · right
        cases rest with
        | nil => simp at h
        | cons r rs => simpa using h
    | ret num child => exact ih ha
    | segv num child => exact ih ha

theorem failures_return_execvp (sys : Sys) (num : Nat) (argv : List CStr) (io : Proc)
    (child : Bool) : failures_return sys (execvp sys num argv io child) = true := by
  unfold execvp
  split
  · rfl
  · split
    · rename_i h
      simp [failures_return, h]
    · simp [failures_return]

theorem failures_return_child_events (sys : Sys) (num : Nat) (argv : List CStr) (io : Proc) :
    failures_return sys (child_events sys num argv io) = true := by
  unfold child_events
  split
  · rfl
  · split
    · rfl
    · exact failures_return_execvp sys num argv _ true

theorem failures_return_pipeline_run (sys : Sys) :
    ∀ (stages : List (List CStr)) (num : Nat) (io : Proc),
      failures_return sys (pipeline_run sys num stages io) = true := by
  intro stages
  induction stages with
  | nil => intro num io; rfl
  | cons s rest ih =>
    intro num io
    cases rest with
    | nil =>
      unfold pipeline_run
      split
      · rfl
      · exact failures_return_execvp sys num _ _ false
    | cons s' rest' =>
      unfold pipeline_run
      split
      · rfl
      · refine failures_return_append sys _ _ (failures_return_child_events sys num _ _) ?_
        split
        · rfl
        · exact ih (num + 1) _

/-- After line 143 has freed `command`, the end of the round frees it again. -/
theorem main_child_return_fault (heap : List Block) : main_child_return heap = .fault := by
  unfold main_child_return
  by_cases h1 : Block.command ∈ heap
  · simp only [free, if_pos h1, Res.bind, main_round_end]
    by_cases h2 : Block.args ∈ heap.filter fun x => x ≠ Block.command
    · have h3 : Block.command ∉
          (heap.filter fun x => x ≠ Block.command).filter fun x => x ≠ Block.args := by
        simp [List.mem_filter]
      simp only [if_pos h2, if_neg h3]
    · simp only [if_neg h2]
  · simp only [free, if_neg h1, Res.bind]

/-- C11 (what the code does): the child `main` forks for a command (a
pipeline `p` holding the stages `stages`, each beginning with a program name)
never calls `exit`. Its events are those of `main_child`, in which every
`execvp` call that fails is followed by the return of the calling process
into `main`; on the plain path (neither flag set) a failing call gives exactly
the call and the return. Back in `main` the process frees `command` at line
143 and again at line 160, a fault, on its way to the head of the loop. -/
theorem C11_child_goes_on_in_main (sys : Sys) (p : Pipeline) (stages : List (List CStr))
    (pipes io_redirection : Bool) (heap : List Block) (hholds : p.holds stages)
    (hne : stages ≠ []) (hprog : ∀ s ∈ stages, s ≠ [])
    (hre : sys.realloc_ok = true ∨ ∀ s ∈ stages, ∀ t ∈ s, redir_op t = none)
    (hops : ∀ s ∈ stages, count_ops s < 100) :
    ∃ evs, main_child sys p pipes io_redirection = .ok evs ∧
      failures_return sys evs = true ∧
      (pipes = false → io_redirection = false → ∀ s, stages[0]? = some s →
        sys.exec_ok s = false →
        evs = [.exec 0 s Proc.ambient false, .ret 0 false]) ∧
      main_child_return heap = .fault := by
  obtain ⟨s0, rest, rfl⟩ : ∃ s0 rest, stages = s0 :: rest := by
    cases stages with
    | nil => exact absurd rfl hne
    | cons a l => exact ⟨a, l, rfl⟩
  have hs0 : s0 ≠ [] := hprog s0 (List.mem_cons_self _ _)
  obtain ⟨a0, r0, rfl⟩ : ∃ a0 r0, s0 = a0 :: r0 := by
    cases s0 with
    | nil => exact absurd rfl hs0
    | cons a l => exact ⟨a, l, rfl⟩
  have hargs0 : p.args[0]? = some (some a0) := by
    rw [hholds.1]
    simp [blocks]
  have hargv : argv_at p.args 0 = some (a0 :: r0) := by
    rw [hholds.1]
    unfold argv_at
    rw [List.drop_zero, blocks_cons]
    exact read_argv_block _ _
  by_cases hflags : pipes = true ∨ io_redirection = true
  · refine ⟨pipeline_run sys 0 ((a0 :: r0) :: rest) Proc.ambient, ?_,
      failures_return_pipeline_run sys _ 0 _, ?_, main_child_return_fault heap⟩
    · simp only [main_child, hargs0, if_pos hflags]
      exact execute_pipeline_eq sys p _ Proc.ambient hholds hne hre hops
    · intro h1 h2
      rcases hflags with h | h
      · rw [h1] at h; exact absurd h (by decide)
      · rw [h2] at h; exact absurd h (by decide)
  · refine ⟨execvp sys 0 (a0 :: r0) Proc.ambient false, ?_,
      failures_return_execvp sys 0 _ _ false, ?_, main_child_return_fault heap⟩
    · simp only [main_child, hargs0, if_neg hflags, hargv]
    · intro _ _ s hs hfail
      have : s = a0 :: r0 := by simpa using hs.symm
      subst this
      simp [execvp, hfail]

/-- Witness of C11: the command `nosuch` on a system that executes no program. -/
theorem C11_witness :
    ∃ evs, main_child Sys.no_exec
        { args := blocks [["nosuch".toList]]
          cmds := [{ tokens := some 0, stdout_pipe := false, stdout_file := none }] }
        false false = .ok evs ∧
      failures_return Sys.no_exec evs = true ∧
      (false = false → false = false → ∀ s, [["nosuch".toList]][0]? = some s →
        Sys.no_exec.exec_ok s = false →
        evs = [.exec 0 s Proc.ambient false, .ret 0 false]) ∧
      main_child_return [.command, .args, .cmds] = .fault :=
  C11_child_goes_on_in_main Sys.no_exec _ [["nosuch".toList]] false false
    [.command, .args, .cmds] (by decide) (by decide) (by decide) (Or.inl rfl) (by decide)

set_option maxRecDepth 1000000 in
/-- The same from the input line, on both ways: for the line `nosuch` the
child calls `execvp` and returns into `main`; for `nosuch | cat` the
child forked inside `execute_pipeline` and the child of `main` both do. -/
theorem child_returns_examples :
    main_round_child Sys.no_exec 20 (hist_init 100) "nosuch".toList =
      .ok [.exec 0 ["nosuch".toList] Proc.ambient false, .ret 0 false] ∧
    main_round_child Sys.no_exec 20 (hist_init 100) "nosuch | cat".toList =
      .ok [.exec 0 ["nosuch".toList] { stdin := .ambient_in, stdout := .pipe_write 0 } true,
           .ret 0 true,
           .exec 1 ["cat".toList] { stdin := .pipe_read 0, stdout := .ambient_out } false,
           .ret 1 false] := by
  refine ⟨by decide, by decide⟩

end Shell
